import Mathlib

/-!
Verification of the syncrypto `Crypto` engine (`syncrypto/crypto.py`), a
streaming file encryption/decryption core.  The Python source is shallowly
embedded: byte strings become `List Nat` (each entry meant as a byte value
0..255), file descriptors become explicit byte lists (reads are `take`/`drop`
on the remaining input), and the block-cipher, hash and zlib primitives from
the `cryptography`, `hashlib` and `zlib` libraries are abstract parameters
collected in a `Prims` structure.  Python exceptions become `Except` /
explicit error outcomes.
-/

namespace Syncrypto

/-- Error outcomes of the engine.  The first four mirror the exception
classes declared in `crypto.py` (`InvalidKey` is declared there but never
raised by this module); `structError`, `indexError` and `valueError` mirror
the Python `struct.error`, `IndexError` and `ValueError` exceptions that
the code can raise through library calls. -/
inductive Err where
  | invalidKey
  | digestMissMatch
  | unrecognizedContent
  | versionNotCompatible
  | structError
  | indexError
  | valueError
  deriving DecidableEq, Repr

/-- Decidable equality for `Except` results, used to evaluate the engine
on concrete inputs. -/
instance {ε α : Type} [DecidableEq ε] [DecidableEq α] : DecidableEq (Except ε α) := fun a b =>
  match a, b with
  | .error e1, .error e2 =>
    if h : e1 = e2 then isTrue (by rw [h]) else isFalse (by intro hc; cases hc; exact h rfl)
  | .error _, .ok _ => isFalse (by intro hc; cases hc)
  | .ok _, .error _ => isFalse (by intro hc; cases hc)
  | .ok a1, .ok a2 =>
    if h : a1 = a2 then isTrue (by rw [h]) else isFalse (by intro hc; cases hc; exact h rfl)

/-- Modelled from the spec: the external `FileEntry` record from the
`filetree` module (not part of the analysed source).  Fields per spec §3:
pathname (text; modelled as its UTF-8 byte encoding), size, ctime, mtime
(numbers), mode (signed), digest (content hash bytes), salt (optional
random bytes), and an is-dir flag.  The engine reads and writes exactly
these fields. -/
structure FileEntry where
  pathname : List Nat
  size : Nat
  ctime : Nat
  mtime : Nat
  mode : Int
  digest : List Nat := []
  salt : Option (List Nat) := none
  isDir : Bool := false
  deriving DecidableEq, Repr

/-- Abstract cryptographic / compression primitives used by `crypto.py`:
the AES block cipher (one 16-byte block under a key) in both directions,
the MD5 hash (applied to the concatenation of all bytes fed to a hash
object, which equals Python's incremental `update` interface), and the
zlib compress/decompress pair. -/
structure Prims where
  aesEnc : List Nat → List Nat → List Nat
  aesDec : List Nat → List Nat → List Nat
  md5 : List Nat → List Nat
  zlibCompress : List Nat → List Nat
  zlibDecompress : List Nat → List Nat

/-- Assumptions on the primitives that hold for the real AES/MD5: AES maps
16-byte blocks to 16-byte blocks, decryption inverts encryption, and MD5
digests are 16 bytes. -/
structure GoodPrims (P : Prims) : Prop where
  encLen : ∀ k b, b.length = 16 → (P.aesEnc k b).length = 16
  decLen : ∀ k b, b.length = 16 → (P.aesDec k b).length = 16
  decEnc : ∀ k b, b.length = 16 → P.aesDec k (P.aesEnc k b) = b
  md5Len : ∀ m, (P.md5 m).length = 16

/-- The `Crypto` engine configuration: `__init__` stores the
latin-1-encoded password (modelled directly as bytes), the key size
(default 32) and the block size, which is always 16. -/
structure Crypto where
  password : List Nat
  keySize : Nat := 32
  deriving Repr

/-- Class constant `Crypto.VERSION = 0x1`. -/
def Crypto.VERSION : Nat := 1

/-- Class constant `Crypto.COMPRESS = 0x1` (flags bit 0). -/
def Crypto.COMPRESS : Nat := 1

/-- Class constant `Crypto.BUFFER_SIZE = 1024`; reads happen in chunks of
`BUFFER_SIZE * block_size = 16384` bytes. -/
def Crypto.BUFFER_SIZE : Nat := 1024

/-- Fixed block size `self.block_size = 16`. -/
def Crypto.blockSize : Nat := 16

/-- Big-endian byte serialisation of a natural number on `k` bytes
(the core of Python's `struct.pack` with formats `!H`, `!I`, `!Q`). -/
def beBytes : Nat → Nat → List Nat
  | 0, _ => []
  | k + 1, n => beBytes k (n / 256) ++ [n % 256]

/-- Big-endian byte deserialisation (the core of `struct.unpack`). -/
def beNat (l : List Nat) : Nat := l.foldl (fun a b => 256 * a + b) 0

/-- Python `struct.pack(b'!H', n)`: two big-endian bytes; raises
`struct.error` unless `0 ≤ n ≤ 0xFFFF`. -/
def packH (n : Nat) : Except Err (List Nat) :=
  if n ≤ 65535 then .ok (beBytes 2 n) else .error .structError

/-- Python `struct.pack(b'!I', n)`: four big-endian bytes; raises
`struct.error` unless `0 ≤ n < 2^32`. -/
def packI (n : Nat) : Except Err (List Nat) :=
  if n < 2 ^ 32 then .ok (beBytes 4 n) else .error .structError

/-- Python `struct.pack(b'!Q', n)`: eight big-endian bytes; raises
`struct.error` unless `0 ≤ n < 2^64`. -/
def packQ (n : Nat) : Except Err (List Nat) :=
  if n < 2 ^ 64 then .ok (beBytes 8 n) else .error .structError

/-- Python `struct.pack(b'!i', m)`: four big-endian bytes of the 32-bit
two's complement of `m`; raises `struct.error` unless
`-2^31 ≤ m < 2^31`. -/
def packi (m : Int) : Except Err (List Nat) :=
  if -(2 ^ 31) ≤ m ∧ m < 2 ^ 31 then .ok (beBytes 4 (Int.toNat (m % 2 ^ 32)))
  else .error .structError

/-- Signed 32-bit interpretation used by `struct.unpack(b'!i', ·)`. -/
def sDec (u : Nat) : Int :=
  if u < 2 ^ 31 then (u : Int) else (u : Int) - 2 ^ 32

/-- The static method `Crypto._build_footer`: digest bytes, then
`pack('!Q', size)`, `pack('!I', int(ctime))`, `pack('!I', int(mtime))`,
`pack('!i', mode)` and 12 zero bytes. -/
def buildFooter (e : FileEntry) : Except Err (List Nat) := do
  let sz ← packQ e.size
  let ct ← packI e.ctime
  let mt ← packI e.mtime
  let md ← packi e.mode
  pure (e.digest ++ sz ++ ct ++ mt ++ md ++ List.replicate 12 0)

/-- The static method `Crypto._unpack_footer`: `unpack(b'!QIIi', footer[16:36])`
(raising `struct.error` when that slice is shorter than 20 bytes) and
`FileEntry(pathname, size, ctime, mtime, mode, footer[:16], False)`. -/
def unpackFooter (pathname footer : List Nat) : Except Err FileEntry :=
  let body := (footer.drop 16).take 20
  if body.length < 20 then .error .structError
  else
    .ok { pathname := pathname
          size := beNat (body.take 8)
          ctime := beNat ((body.drop 8).take 4)
          mtime := beNat ((body.drop 12).take 4)
          mode := sDec (beNat ((body.drop 16).take 4))
          digest := footer.take 16
          salt := none
          isDir := false }

/-- Pointwise xor of two byte strings (the CBC chaining step). -/
def zipXor (a b : List Nat) : List Nat := List.zipWith (fun x y => x ^^^ y) a b

/-- CBC-mode encryption of block-aligned data: each 16-byte plaintext block
is xor-ed with the previous ciphertext block (initially the IV) and sent
through the block cipher.  Returns the ciphertext together with the final
chaining block.  `fuel` only drives the structural recursion; any
`fuel ≥ data.length` gives the full result. -/
def encBlocks (P : Prims) (key : List Nat) : Nat → List Nat → List Nat → List Nat × List Nat
  | 0, st, _ => ([], st)
  | fuel + 1, st, data =>
    if data.isEmpty then ([], st)
    else
      let cblk := P.aesEnc key (zipXor st (data.take 16))
      let (restc, st') := encBlocks P key fuel cblk (data.drop 16)
      (cblk ++ restc, st')

/-- CBC-mode decryption of block-aligned data, dual to `encBlocks`: each
16-byte ciphertext block goes through the inverse block cipher and is
xor-ed with the previous ciphertext block (initially the IV). -/
def decBlocks (P : Prims) (key : List Nat) : Nat → List Nat → List Nat → List Nat × List Nat
  | 0, st, _ => ([], st)
  | fuel + 1, st, data =>
    if data.isEmpty then ([], st)
    else
      let cblk := data.take 16
      let pblk := zipXor st (P.aesDec key cblk)
      let (restp, st') := decBlocks P key fuel cblk (data.drop 16)
      (pblk ++ restp, st')

/-- One `encryptor.update` on block-aligned input. -/
def encUpdate (P : Prims) (key st data : List Nat) : List Nat × List Nat :=
  encBlocks P key data.length st data

/-- One `decryptor.update` on block-aligned input. -/
def decUpdate (P : Prims) (key st data : List Nat) : List Nat × List Nat :=
  decBlocks P key data.length st data

/-- State of a `cryptography` cipher context: the CBC chaining block plus
the internal buffer of not-yet-processed bytes (an `update` call emits all
complete blocks and buffers any trailing partial block). -/
structure CipherCtx where
  st : List Nat
  buf : List Nat
  deriving DecidableEq, Repr

/-- `encryptor.update(data)`: processes all complete 16-byte blocks of
buffered plus new bytes, emits their ciphertext and keeps the remainder
buffered. -/
def ctxUpdateEnc (P : Prims) (key : List Nat) (ctx : CipherCtx) (data : List Nat) :
    List Nat × CipherCtx :=
  let total := ctx.buf ++ data
  let nb := total.length / 16
  let (out, st') := encUpdate P key ctx.st (total.take (nb * 16))
  (out, ⟨st', total.drop (nb * 16)⟩)

/-- `decryptor.update(data)`: same buffering discipline as `ctxUpdateEnc`,
with CBC decryption of the complete blocks. -/
def ctxUpdateDec (P : Prims) (key : List Nat) (ctx : CipherCtx) (data : List Nat) :
    List Nat × CipherCtx :=
  let total := ctx.buf ++ data
  let nb := total.length / 16
  let (out, st') := decUpdate P key ctx.st (total.take (nb * 16))
  (out, ⟨st', total.drop (nb * 16)⟩)

/-- `finalize()` on a CBC cipher context: emits nothing, but raises
`ValueError` if a partial block is still buffered. -/
def ctxFinalize (ctx : CipherCtx) : Except Err (List Nat) :=
  if ctx.buf.isEmpty then .ok [] else .error .valueError

/-- The `while` loop of `gen_key_and_iv`: `d = d_i = b''`, and while
`len(d) < key_size + block_size`, set `d_i = md5(d_i + password + salt)`
and append it to `d`.  `fuel` only drives the recursion; `target` fuel
suffices whenever the hash returns nonempty digests. -/
def genKeyAndIvLoop (P : Prims) (pw salt : List Nat) (target : Nat) :
    Nat → List Nat → List Nat → List Nat
  | 0, d, _ => d
  | fuel + 1, d, dI =>
    if d.length < target then
      let dI' := P.md5 (dI ++ pw ++ salt)
      genKeyAndIvLoop P pw salt target fuel (d ++ dI') dI'
    else d

/-- The method `Crypto.gen_key_and_iv(salt)`: run the iterative-hash loop
until `key_size + block_size` bytes are accumulated, then return
`d[:key_size]` as the key and `d[key_size:key_size+block_size]` as the IV. -/
def genKeyAndIv (P : Prims) (c : Crypto) (salt : List Nat) : List Nat × List Nat :=
  let target := c.keySize + Crypto.blockSize
  let d := genKeyAndIvLoop P c.password salt target target [] []
  (d.take c.keySize, (d.drop c.keySize).take Crypto.blockSize)

/-- Chunk size of the streaming loops: `Crypto.BUFFER_SIZE * bs = 16384`. -/
def chunkSize : Nat := Crypto.BUFFER_SIZE * Crypto.blockSize

/-- The padding length computed by `encrypt_fd` for a final chunk of `n`
bytes: the Python expression `(bs - n % bs) or bs` (the `or bs` arm fires
exactly when `bs - n % bs` is zero, which for `bs = 16` never happens, but
it is kept verbatim from the source). -/
def padPython (n : Nat) : Nat :=
  if 16 - n % 16 = 0 then 16 else 16 - n % 16

/-- The content loop of `encrypt_fd`: read chunks of `BUFFER_SIZE * bs`
bytes; feed each raw chunk to the digest (not modelled here: the digest of
the concatenation of all chunks is `md5` of the whole content); on the
first empty or non-block-aligned chunk, append PKCS#7-style padding
(`padding_length = (bs - len % bs) or bs` bytes, each equal to
`padding_length`) and stop; encrypt and emit every (padded) chunk.
`fuel ≥ content.length + 1` always suffices. -/
def encContentLoop (P : Prims) (key : List Nat) :
    Nat → CipherCtx → List Nat → List Nat × CipherCtx
  | 0, ctx, _ => ([], ctx)
  | fuel + 1, ctx, rest =>
    if (rest.take chunkSize).length = 0 ∨ (rest.take chunkSize).length % 16 ≠ 0 then
      ctxUpdateEnc P key ctx (rest.take chunkSize ++
        List.replicate (padPython (rest.take chunkSize).length)
          (padPython (rest.take chunkSize).length))
    else
      ((ctxUpdateEnc P key ctx (rest.take chunkSize)).1 ++
        (encContentLoop P key fuel (ctxUpdateEnc P key ctx (rest.take chunkSize)).2
          (rest.drop chunkSize)).1,
       (encContentLoop P key fuel (ctxUpdateEnc P key ctx (rest.take chunkSize)).2
         (rest.drop chunkSize)).2)

/-- Default entry synthesised by `encrypt_fd` when called with
`file_entry=None`: `FileEntry('.tmp', 0, time(), time(), 0)` (the bytes of
`'.tmp'` are 46,116,109,112; `now` stands for `time()`). -/
def defaultEntry (now : Nat) : FileEntry :=
  { pathname := [46, 116, 109, 112], size := 0, ctime := now, mtime := now, mode := 0 }

/-- The method `Crypto.encrypt_fd(in_fd, out_fd, file_entry, flags=0)`.
`content` is the full byte stream readable from `in_fd`, `rand` is the
value `os.urandom(bs - 4)` would return, `now` the value of `time()`.
Returns the bytes written to `out_fd` and the mutated entry, or the
exception the call raises. -/
def encryptFd (P : Prims) (c : Crypto) (content : List Nat)
    (entry? : Option FileEntry) (flags : Nat) (rand : List Nat) (now : Nat) :
    Except Err (List Nat × FileEntry) := do
  let bs := Crypto.blockSize
  let e0 := entry?.getD (defaultEntry now)
  let salt := e0.salt.getD rand
  let e1 := { e0 with salt := some salt }
  let key := (genKeyAndIv P c salt).1
  let iv := (genKeyAndIv P c salt).2
  let pathname := e1.pathname.take (2 ^ 16)
  let ps := pathname.length
  let pathnamePadding := if ps % bs ≠ 0 then List.replicate (bs - ps % bs) 0 else []
  let flags' := flags &&& 0xFF
  let psBytes ← packH ps
  let header := [Crypto.VERSION, flags'] ++ psBytes ++ salt
  let cPath := (ctxUpdateEnc P key ⟨iv, []⟩ (pathname ++ pathnamePadding)).1
  let ctx1 := (ctxUpdateEnc P key ⟨iv, []⟩ (pathname ++ pathnamePadding)).2
  let content' := if flags' &&& Crypto.COMPRESS ≠ 0 then P.zlibCompress content else content
  let cContent := (encContentLoop P key (content'.length + 1) ctx1 content').1
  let ctx2 := (encContentLoop P key (content'.length + 1) ctx1 content').2
  let digest := P.md5 content'
  let e2 := { e1 with digest := digest }
  let footerBytes ← buildFooter e2
  let cFoot := (ctxUpdateEnc P key ctx2 footerBytes).1
  let ctx3 := (ctxUpdateEnc P key ctx2 footerBytes).2
  let fin ← ctxFinalize ctx3
  pure (header ++ cPath ++ cContent ++ cFoot ++ fin, e2)

/-- Result of a `decrypt_fd` call: normal return (bytes written to
`out_fd`, reconstructed entry), an exception raised with the bytes written
to `out_fd` up to that point, or non-termination of the content loop. -/
inductive Outcome where
  | ok (sink : List Nat) (entry : FileEntry)
  | err (sink : List Nat) (e : Err)
  | diverge
  deriving DecidableEq, Repr

/-- The footer/padding processing of the final iteration of the
`decrypt_fd` loop: from the final decrypted chunk `pt` (plus the empty
`finalize()` output), unpack the footer from `pt[-48:]`, read the padding
length from `bytearray(pt[-49:-48])[0]` (an `IndexError` when that slice
is empty, i.e. when `pt` is shorter than 49 bytes), strip
`padding_length + 48` trailing bytes and append what remains to the
accumulated output. -/
def decFinish (pathname acc pt : List Nat) :
    Option (Except Err (List Nat × FileEntry)) :=
  match unpackFooter pathname (pt.drop (pt.length - 48)) with
  | .error e => some (.error e)
  | .ok fe =>
    if pt.length < 49 then some (.error .indexError)
    else
      some (.ok (acc ++ pt.take (pt.length - (pt.getD (pt.length - 49) 0 + 48)), fe))

/-- The lookahead content loop of `decrypt_fd`:
`chunk, next_chunk = next_chunk, in_fd.read(BUFFER_SIZE * bs)`; a nonempty
`chunk` is decrypted and accumulated; when the fresh read is empty the
loop finalizes, unpacks the footer from the last 48 bytes of the final
decrypted chunk, reads the padding length from the byte before them
(`bytearray(plaintext[-49:-48])[0]`, an `IndexError` when that slice is
empty), strips `padding_length + 48` trailing bytes and finishes.  The
`finished` flag is only ever set in the nonempty-`chunk` branch; `fuel`
counts loop iterations, and `none` means no iteration bound finishes the
loop (the Python loop runs forever). -/
def decLoop (P : Prims) (key pathname : List Nat) :
    Nat → List Nat → CipherCtx → List Nat → List Nat →
    Option (Except Err (List Nat × FileEntry))
  | 0, _, _, _, _ => none
  | fuel + 1, chunk, ctx, rest, acc =>
    if chunk.isEmpty then
      decLoop P key pathname fuel (rest.take chunkSize) ctx (rest.drop chunkSize) acc
    else
      if (rest.take chunkSize).isEmpty then
        match ctxFinalize (ctxUpdateDec P key ctx chunk).2 with
        | .error e => some (.error e)
        | .ok fin =>
          decFinish pathname acc ((ctxUpdateDec P key ctx chunk).1 ++ fin)
      else
        decLoop P key pathname fuel (rest.take chunkSize) (ctxUpdateDec P key ctx chunk).2
          (rest.drop chunkSize) (acc ++ (ctxUpdateDec P key ctx chunk).1)

/-- The method `Crypto.decrypt_fd(in_fd, out_fd)`.  `input` is the full
byte stream readable from `in_fd`.  Parses the 16-byte header (version,
flags, big-endian pathname size, 12-byte salt), gates on the version,
re-derives key/IV from the salt, reads and decrypts the pathname region
(`pathname_block_size = int((pathname_size/bs + 1) * bs)` under Python's
true division, which is exactly `pathname_size + 16` when the size is not
block-aligned, else `pathname_size`), then runs the lookahead content
loop, optionally decompresses, attaches the salt, compares the digest and
only then writes the recovered content to `out_fd`. -/
def decryptFd (P : Prims) (c : Crypto) (input : List Nat) : Outcome :=
  let bs := Crypto.blockSize
  let line := input.take bs
  if line.length < bs then .err [] .unrecognizedContent
  else
    let version := line.getD 0 0
    if version > Crypto.VERSION then .err [] .versionNotCompatible
    else
      let flags := line.getD 1 0
      let ps := 256 * line.getD 2 0 + line.getD 3 0
      let salt := line.drop 4
      let key := (genKeyAndIv P c salt).1
      let pbs := if ps % bs ≠ 0 then ps + bs else ps
      let rest0 := input.drop bs
      let pathnameData := rest0.take pbs
      if pathnameData.length < pbs then .err [] .unrecognizedContent
      else
        let pnPlain := (ctxUpdateDec P key ⟨(genKeyAndIv P c salt).2, []⟩ pathnameData).1
        let ctx1 := (ctxUpdateDec P key ⟨(genKeyAndIv P c salt).2, []⟩ pathnameData).2
        let pathname := pnPlain.take ps
        let rest := rest0.drop pbs
        match decLoop P key pathname (rest.length + 2) [] ctx1 rest [] with
        | none => .diverge
        | some (.error e) => .err [] e
        | some (.ok (buf, fe)) =>
          let buf' := if flags &&& Crypto.COMPRESS ≠ 0 then P.zlibDecompress buf else buf
          let fe' := { fe with salt := some salt }
          if fe'.digest ≠ (P.md5 buf).take bs then .err [] .digestMissMatch
          else .ok buf' fe'

/-! Basic lemmas about the CBC block layer. -/

lemma zipXor_length (a b : List Nat) : (zipXor a b).length = min a.length b.length := by
  simp [zipXor]

lemma zipXor_zipXor (a : List Nat) : ∀ b : List Nat, b.length ≤ a.length →
    zipXor a (zipXor a b) = b := by
  induction a with
  | nil => intro b hb; simp at hb; simp [hb, zipXor]
  | cons x xs ih =>
    intro b hb
    cases b with
    | nil => simp [zipXor]
    | cons y ys =>
      have h2 := ih ys (by simpa using hb)
      simp only [zipXor, List.zipWith_cons_cons, Nat.xor_cancel_left] at h2 ⊢
      rw [h2]

lemma encBlocks_nil (P : Prims) (key : List Nat) (fuel : Nat) (st : List Nat) :
    encBlocks P key fuel st [] = ([], st) := by
  cases fuel <;> simp [encBlocks]

lemma decBlocks_nil (P : Prims) (key : List Nat) (fuel : Nat) (st : List Nat) :
    decBlocks P key fuel st [] = ([], st) := by
  cases fuel <;> simp [decBlocks]

lemma encBlocks_fuel (P : Prims) (key : List Nat) :
    ∀ f1 f2 st data, data.length ≤ f1 → data.length ≤ f2 →
      encBlocks P key f1 st data = encBlocks P key f2 st data := by
  intro f1
  induction f1 with
  | zero =>
    intro f2 st data h1 _
    have : data = [] := List.length_eq_zero.mp (Nat.le_antisymm h1 (Nat.zero_le _))
    subst this
    simp [encBlocks_nil]
  | succ f ih =>
    intro f2 st data h1 h2
    rcases data with _ | ⟨x, xs⟩
    · simp [encBlocks_nil]
    · cases f2 with
      | zero => simp at h2
      | succ f2' =>
        simp only [encBlocks, List.isEmpty_cons]
        have hlen : (List.drop 16 (x :: xs)).length ≤ f ∧ (List.drop 16 (x :: xs)).length ≤ f2' := by
          simp only [List.length_drop, List.length_cons] at *
          omega
        rw [ih f2' _ _ hlen.1 hlen.2]

lemma decBlocks_fuel (P : Prims) (key : List Nat) :
    ∀ f1 f2 st data, data.length ≤ f1 → data.length ≤ f2 →
      decBlocks P key f1 st data = decBlocks P key f2 st data := by
  intro f1
  induction f1 with
  | zero =>
    intro f2 st data h1 _
    have : data = [] := List.length_eq_zero.mp (Nat.le_antisymm h1 (Nat.zero_le _))
    subst this
    simp [decBlocks_nil]
  | succ f ih =>
    intro f2 st data h1 h2
    rcases data with _ | ⟨x, xs⟩
    · simp [decBlocks_nil]
    · cases f2 with
      | zero => simp at h2
      | succ f2' =>
        simp only [decBlocks, List.isEmpty_cons]
        have hlen : (List.drop 16 (x :: xs)).length ≤ f ∧ (List.drop 16 (x :: xs)).length ≤ f2' := by
          simp only [List.length_drop, List.length_cons] at *
          omega
        rw [ih f2' _ _ hlen.1 hlen.2]

lemma encUpdate_nil (P : Prims) (key st : List Nat) : encUpdate P key st [] = ([], st) := by
  simp [encUpdate, encBlocks_nil]

lemma decUpdate_nil (P : Prims) (key st : List Nat) : decUpdate P key st [] = ([], st) := by
  simp [decUpdate, decBlocks_nil]

lemma encUpdate_step (P : Prims) (key st : List Nat) {data : List Nat} (h : data ≠ []) :
    encUpdate P key st data =
      ((P.aesEnc key (zipXor st (data.take 16))) ++
        (encUpdate P key (P.aesEnc key (zipXor st (data.take 16))) (data.drop 16)).1,
       (encUpdate P key (P.aesEnc key (zipXor st (data.take 16))) (data.drop 16)).2) := by
  rcases data with _ | ⟨x, xs⟩
  · exact absurd rfl h
  · show encBlocks P key (xs.length + 1) st (x :: xs) = _
    simp only [encBlocks, List.isEmpty_cons, if_neg]
    rw [encBlocks_fuel P key xs.length (List.drop 16 (x :: xs)).length _ _
      (by simp) (le_refl _)]
    rfl

lemma decUpdate_step (P : Prims) (key st : List Nat) {data : List Nat} (h : data ≠ []) :
    decUpdate P key st data =
      (zipXor st (P.aesDec key (data.take 16)) ++
        (decUpdate P key (data.take 16) (data.drop 16)).1,
       (decUpdate P key (data.take 16) (data.drop 16)).2) := by
  rcases data with _ | ⟨x, xs⟩
  · exact absurd rfl h
  · show decBlocks P key (xs.length + 1) st (x :: xs) = _
    simp only [decBlocks, List.isEmpty_cons, if_neg]
    rw [decBlocks_fuel P key xs.length (List.drop 16 (x :: xs)).length _ _
      (by simp) (le_refl _)]
    rfl

lemma encUpdate_len_aux {P : Prims} {key : List Nat} (hG : GoodPrims P) :
    ∀ n data st, data.length ≤ n → st.length = 16 → 16 ∣ data.length →
      (encUpdate P key st data).1.length = data.length ∧
        (encUpdate P key st data).2.length = 16 := by
  intro n
  induction n with
  | zero =>
    intro data st h1 hst _
    have : data = [] := List.length_eq_zero.mp (Nat.le_antisymm h1 (Nat.zero_le _))
    subst this
    simp [encUpdate_nil, hst]
  | succ n ih =>
    intro data st h1 hst hdvd
    rcases eq_or_ne data [] with rfl | hne
    · simp [encUpdate_nil, hst]
    · have hlen16 : 16 ≤ data.length :=
        Nat.le_of_dvd (List.length_pos.mpr hne) hdvd
      have htake : (data.take 16).length = 16 := by
        simp [List.length_take, Nat.min_eq_left hlen16]
      have hxlen : (zipXor st (data.take 16)).length = 16 := by
        rw [zipXor_length, hst, htake]; simp
      have hclen : (P.aesEnc key (zipXor st (data.take 16))).length = 16 :=
        hG.encLen key _ hxlen
      have hdrop : (data.drop 16).length ≤ n := by
        simp only [List.length_drop]; omega
      have hdvd' : 16 ∣ (data.drop 16).length := by
        simp only [List.length_drop]
        exact (Nat.dvd_sub' hdvd (dvd_refl 16))
      have := ih (data.drop 16) _ hdrop hclen hdvd'
      rw [encUpdate_step P key st hne]
      constructor
      · simp only [List.length_append, hclen, this.1, List.length_drop]
        omega
      · exact this.2

lemma encUpdate_len {P : Prims} {key : List Nat} (hG : GoodPrims P)
    {data st : List Nat} (hst : st.length = 16) (hdvd : 16 ∣ data.length) :
    (encUpdate P key st data).1.length = data.length ∧
      (encUpdate P key st data).2.length = 16 :=
  encUpdate_len_aux hG data.length data st (le_refl _) hst hdvd

lemma encUpdate_append_aux {P : Prims} {key : List Nat} (hG : GoodPrims P) :
    ∀ n a b st, a.length ≤ n → st.length = 16 → 16 ∣ a.length →
      encUpdate P key st (a ++ b) =
        ((encUpdate P key st a).1 ++ (encUpdate P key (encUpdate P key st a).2 b).1,
         (encUpdate P key (encUpdate P key st a).2 b).2) := by
  intro n
  induction n with
  | zero =>
    intro a b st h1 hst _
    have : a = [] := List.length_eq_zero.mp (Nat.le_antisymm h1 (Nat.zero_le _))
    subst this
    simp [encUpdate_nil]
  | succ n ih =>
    intro a b st h1 hst hdvd
    rcases eq_or_ne a [] with rfl | hne
    · simp [encUpdate_nil]
    · have hlen16 : 16 ≤ a.length :=
        Nat.le_of_dvd (List.length_pos.mpr hne) hdvd
      have htake : (a ++ b).take 16 = a.take 16 :=
        List.take_append_of_le_length hlen16
      have hdropab : (a ++ b).drop 16 = a.drop 16 ++ b :=
        List.drop_append_of_le_length hlen16
      have hnee : a ++ b ≠ [] := by simp [hne]
      have htake16 : (a.take 16).length = 16 := by
        simp [List.length_take, Nat.min_eq_left hlen16]
      have hclen : (P.aesEnc key (zipXor st (a.take 16))).length = 16 :=
        hG.encLen key _ (by rw [zipXor_length, hst, htake16]; simp)
      have hdropn : (a.drop 16).length ≤ n := by
        simp only [List.length_drop]; omega
      have hdvd' : 16 ∣ (a.drop 16).length := by
        simp only [List.length_drop]
        exact (Nat.dvd_sub' hdvd (dvd_refl 16))
      rw [encUpdate_step P key st hnee, htake, hdropab,
        ih (a.drop 16) b _ hdropn hclen hdvd', encUpdate_step P key st hne]
      simp [List.append_assoc]

lemma encUpdate_append {P : Prims} {key : List Nat} (hG : GoodPrims P)
    {a b st : List Nat} (hst : st.length = 16) (hdvd : 16 ∣ a.length) :
    encUpdate P key st (a ++ b) =
      ((encUpdate P key st a).1 ++ (encUpdate P key (encUpdate P key st a).2 b).1,
       (encUpdate P key (encUpdate P key st a).2 b).2) :=
  encUpdate_append_aux hG a.length a b st (le_refl _) hst hdvd

lemma decUpdate_append_aux {P : Prims} {key : List Nat} :
    ∀ n (a b st : List Nat), a.length ≤ n → 16 ∣ a.length →
      decUpdate P key st (a ++ b) =
        ((decUpdate P key st a).1 ++ (decUpdate P key (decUpdate P key st a).2 b).1,
         (decUpdate P key (decUpdate P key st a).2 b).2) := by
  intro n
  induction n with
  | zero =>
    intro a b st h1 _
    have : a = [] := List.length_eq_zero.mp (Nat.le_antisymm h1 (Nat.zero_le _))
    subst this
    simp [decUpdate_nil]
  | succ n ih =>
    intro a b st h1 hdvd
    rcases eq_or_ne a [] with rfl | hne
    · simp [decUpdate_nil]
    · have hlen16 : 16 ≤ a.length :=
        Nat.le_of_dvd (List.length_pos.mpr hne) hdvd
      have htake : (a ++ b).take 16 = a.take 16 :=
        List.take_append_of_le_length hlen16
      have hdropab : (a ++ b).drop 16 = a.drop 16 ++ b :=
        List.drop_append_of_le_length hlen16
      have hnee : a ++ b ≠ [] := by simp [hne]
      have hdropn : (a.drop 16).length ≤ n := by
        simp only [List.length_drop]; omega
      have hdvd' : 16 ∣ (a.drop 16).length := by
        simp only [List.length_drop]
        exact (Nat.dvd_sub' hdvd (dvd_refl 16))
      rw [decUpdate_step P key st hnee, htake, hdropab,
        ih (a.drop 16) b _ hdropn hdvd', decUpdate_step P key st hne]
      simp [List.append_assoc]

lemma decUpdate_append {P : Prims} {key : List Nat}
    {a b st : List Nat} (hdvd : 16 ∣ a.length) :
    decUpdate P key st (a ++ b) =
      ((decUpdate P key st a).1 ++ (decUpdate P key (decUpdate P key st a).2 b).1,
       (decUpdate P key (decUpdate P key st a).2 b).2) :=
  decUpdate_append_aux a.length a b st (le_refl _) hdvd

/-- CBC decryption inverts CBC encryption block by block, including the
final chaining state. -/
lemma decUpdate_encUpdate_aux {P : Prims} {key : List Nat} (hG : GoodPrims P) :
    ∀ n data st, data.length ≤ n → st.length = 16 → 16 ∣ data.length →
      decUpdate P key st (encUpdate P key st data).1 =
        (data, (encUpdate P key st data).2) := by
  intro n
  induction n with
  | zero =>
    intro data st h1 hst _
    have : data = [] := List.length_eq_zero.mp (Nat.le_antisymm h1 (Nat.zero_le _))
    subst this
    simp [encUpdate_nil, decUpdate_nil]
  | succ n ih =>
    intro data st h1 hst hdvd
    rcases eq_or_ne data [] with rfl | hne
    · simp [encUpdate_nil, decUpdate_nil]
    · have hlen16 : 16 ≤ data.length :=
        Nat.le_of_dvd (List.length_pos.mpr hne) hdvd
      have htake16 : (data.take 16).length = 16 := by
        simp [List.length_take, Nat.min_eq_left hlen16]
      have hxlen : (zipXor st (data.take 16)).length = 16 := by
        rw [zipXor_length, hst, htake16]; simp
      set cblk := P.aesEnc key (zipXor st (data.take 16)) with hcblk
      have hclen : cblk.length = 16 := hG.encLen key _ hxlen
      have hdropn : (data.drop 16).length ≤ n := by
        simp only [List.length_drop]; omega
      have hdvd' : 16 ∣ (data.drop 16).length := by
        simp only [List.length_drop]
        exact (Nat.dvd_sub' hdvd (dvd_refl 16))
      have hrec := ih (data.drop 16) cblk hdropn hclen hdvd'
      rw [encUpdate_step P key st hne, ← hcblk]
      have hreclen :=
        (@encUpdate_len_aux P key hG n (data.drop 16) cblk hdropn hclen hdvd').1
      have hne2 : cblk ++ (encUpdate P key cblk (data.drop 16)).1 ≠ [] := by
        intro hcon
        rcases List.append_eq_nil.mp hcon with ⟨h1', _⟩
        rw [h1'] at hclen
        simp at hclen
      rw [decUpdate_step P key st hne2]
      have htkc : (cblk ++ (encUpdate P key cblk (data.drop 16)).1).take 16 = cblk :=
        List.take_left' hclen
      have hdrc : (cblk ++ (encUpdate P key cblk (data.drop 16)).1).drop 16 =
          (encUpdate P key cblk (data.drop 16)).1 :=
        List.drop_left' hclen
      rw [htkc, hdrc, hrec]
      have hdec : zipXor st (P.aesDec key cblk) = data.take 16 := by
        rw [hcblk, hG.decEnc key _ hxlen]
        exact zipXor_zipXor st (data.take 16) (by rw [htake16, hst])
      rw [hdec]
      simp [List.take_append_drop]

lemma decUpdate_encUpdate {P : Prims} {key : List Nat} (hG : GoodPrims P)
    {data st : List Nat} (hst : st.length = 16) (hdvd : 16 ∣ data.length) :
    decUpdate P key st (encUpdate P key st data).1 =
      (data, (encUpdate P key st data).2) :=
  decUpdate_encUpdate_aux hG data.length data st (le_refl _) hst hdvd

/-! Cipher-context wrappers on block-aligned input. -/

lemma ctxUpdateEnc_aligned (P : Prims) (key : List Nat) (st data : List Nat)
    (hdvd : 16 ∣ data.length) :
    ctxUpdateEnc P key ⟨st, []⟩ data = ((encUpdate P key st data).1, ⟨(encUpdate P key st data).2, []⟩) := by
  rcases hdvd with ⟨q, hq⟩
  simp only [ctxUpdateEnc, List.nil_append]
  rw [hq]
  have h1 : 16 * q / 16 * 16 = 16 * q := by omega
  rw [h1, List.take_of_length_le (by rw [hq]), List.drop_eq_nil_of_le (by rw [hq])]

lemma ctxUpdateDec_aligned (P : Prims) (key : List Nat) (st data : List Nat)
    (hdvd : 16 ∣ data.length) :
    ctxUpdateDec P key ⟨st, []⟩ data = ((decUpdate P key st data).1, ⟨(decUpdate P key st data).2, []⟩) := by
  rcases hdvd with ⟨q, hq⟩
  simp only [ctxUpdateDec, List.nil_append]
  rw [hq]
  have h1 : 16 * q / 16 * 16 = 16 * q := by omega
  rw [h1, List.take_of_length_le (by rw [hq]), List.drop_eq_nil_of_le (by rw [hq])]

/-! Big-endian serialisation lemmas (the `struct` pack/unpack pairs). -/

lemma length_beBytes (k n : Nat) : (beBytes k n).length = k := by
  induction k generalizing n with
  | zero => simp [beBytes]
  | succ k ih => simp [beBytes, ih]

lemma beNat_append (l : List Nat) (x : Nat) :
    beNat (l ++ [x]) = 256 * beNat l + x := by
  simp [beNat, List.foldl_append]

lemma beNat_beBytes (k : Nat) : ∀ n, n < 256 ^ k → beNat (beBytes k n) = n := by
  induction k with
  | zero => intro n hn; interval_cases n; simp [beBytes, beNat]
  | succ k ih =>
    intro n hn
    have hdiv : n / 256 < 256 ^ k := by
      apply Nat.div_lt_of_lt_mul
      calc n < 256 ^ (k + 1) := hn
        _ = 256 * 256 ^ k := by ring
    rw [beBytes, beNat_append, ih (n / 256) hdiv]
    omega

lemma sDec_packi_val (m : Int) (h1 : -(2 ^ 31) ≤ m) (h2 : m < 2 ^ 31) :
    sDec (beNat (beBytes 4 (Int.toNat (m % 2 ^ 32)))) = m := by
  have h256 : (256 : Nat) ^ 4 = 2 ^ 32 := by norm_num
  have hlt : Int.toNat (m % 2 ^ 32) < 256 ^ 4 := by rw [h256]; omega
  rw [beNat_beBytes 4 _ hlt]
  simp only [sDec]
  split <;> omega

lemma take_append_exact {a b : List Nat} {n : Nat} (h : a.length = n) :
    (a ++ b).take n = a := List.take_left' h

lemma drop_append_exact {a b : List Nat} {n : Nat} (h : a.length = n) :
    (a ++ b).drop n = b := List.drop_left' h

/-- Unpacking any 48-byte footer whose first 36 bytes are
`digest ++ size ++ ctime ++ mtime ++ mode` recovers the packed fields
(the 12 trailing bytes are never read). -/
lemma unpackFooter_fields (pn d s8 c4 m4 o4 z : List Nat)
    (hd : d.length = 16) (hs : s8.length = 8) (hc : c4.length = 4)
    (hm : m4.length = 4) (ho : o4.length = 4) :
    unpackFooter pn (d ++ (s8 ++ (c4 ++ (m4 ++ (o4 ++ z))))) =
      .ok { pathname := pn, size := beNat s8, ctime := beNat c4,
            mtime := beNat m4, mode := sDec (beNat o4), digest := d,
            salt := none, isDir := false } := by
  have hassoc : s8 ++ (c4 ++ (m4 ++ (o4 ++ z))) = (s8 ++ (c4 ++ (m4 ++ o4))) ++ z := by
    simp [List.append_assoc]
  have hdrop16 : (d ++ (s8 ++ (c4 ++ (m4 ++ (o4 ++ z))))).drop 16 =
      s8 ++ (c4 ++ (m4 ++ (o4 ++ z))) := drop_append_exact hd
  have htake16 : (d ++ (s8 ++ (c4 ++ (m4 ++ (o4 ++ z))))).take 16 = d :=
    take_append_exact hd
  have hbody : (s8 ++ (c4 ++ (m4 ++ (o4 ++ z)))).take 20 = s8 ++ (c4 ++ (m4 ++ o4)) := by
    rw [hassoc]
    exact take_append_exact (by simp [hs, hc, hm, ho])
  have h8 : (s8 ++ (c4 ++ (m4 ++ o4))).take 8 = s8 := take_append_exact hs
  have hd8 : (s8 ++ (c4 ++ (m4 ++ o4))).drop 8 = c4 ++ (m4 ++ o4) := drop_append_exact hs
  have hd12 : (s8 ++ (c4 ++ (m4 ++ o4))).drop 12 = m4 ++ o4 := by
    have : (12 : Nat) = 8 + 4 := by norm_num
    rw [this, ← List.drop_drop, hd8, drop_append_exact hc]
  have hd16 : (s8 ++ (c4 ++ (m4 ++ o4))).drop 16 = o4 := by
    have : (16 : Nat) = 12 + 4 := by norm_num
    rw [this, ← List.drop_drop, hd12, drop_append_exact hm]
  have hlenbody : (s8 ++ (c4 ++ (m4 ++ o4))).length = 20 := by
    simp [hs, hc, hm, ho]
  simp only [unpackFooter, hdrop16, htake16, hbody, hlenbody, h8, hd8, hd12, hd16,
    lt_irrefl, if_false]
  rw [take_append_exact hc, take_append_exact hm, List.take_of_length_le (le_of_eq ho)]

/-- `_build_footer` succeeds on in-range fields and produces the exact
48-byte layout. -/
lemma buildFooter_eq (e : FileEntry)
    (hs : e.size < 2 ^ 64) (hc : e.ctime < 2 ^ 32) (hm : e.mtime < 2 ^ 32)
    (hm1 : -(2 ^ 31) ≤ e.mode) (hm2 : e.mode < 2 ^ 31) :
    buildFooter e = .ok (e.digest ++ beBytes 8 e.size ++ beBytes 4 e.ctime ++
      beBytes 4 e.mtime ++ beBytes 4 (Int.toNat (e.mode % 2 ^ 32)) ++
      List.replicate 12 0) := by
  have h1 : packQ e.size = .ok (beBytes 8 e.size) := by rw [packQ, if_pos hs]
  have h2 : packI e.ctime = .ok (beBytes 4 e.ctime) := by rw [packI, if_pos hc]
  have h3 : packI e.mtime = .ok (beBytes 4 e.mtime) := by rw [packI, if_pos hm]
  have h4 : packi e.mode = .ok (beBytes 4 (Int.toNat (e.mode % 2 ^ 32))) := by
    rw [packi, if_pos (And.intro hm1 hm2)]
  rw [buildFooter, h1, h2, h3, h4]
  rfl

/-- Spec characterisation of key derivation: the rolling digests
`d_1, d_2, ...` with `d_0` empty and `d_i = hash(d_{i-1} ‖ password ‖ salt)`. -/
def kdfIter (P : Prims) (pw salt : List Nat) : Nat → List Nat
  | 0 => []
  | k + 1 => P.md5 (kdfIter P pw salt k ++ pw ++ salt)

/-- Spec characterisation of key derivation: the accumulator after `n`
iterations, `d_1 ‖ d_2 ‖ ... ‖ d_n`. -/
def kdfAccum (P : Prims) (pw salt : List Nat) : Nat → List Nat
  | 0 => []
  | n + 1 => kdfAccum P pw salt n ++ kdfIter P pw salt (n + 1)

lemma kdfAccum_length {P : Prims} (hmd5 : ∀ m, (P.md5 m).length = 16)
    (pw salt : List Nat) : ∀ n, (kdfAccum P pw salt n).length = 16 * n := by
  intro n
  induction n with
  | zero => simp [kdfAccum]
  | succ n ih =>
    simp only [kdfAccum, List.length_append, ih, kdfIter, hmd5]
    ring

lemma genKeyAndIvLoop_eq {P : Prims} (hmd5 : ∀ m, (P.md5 m).length = 16)
    (pw salt : List Nat) (target : Nat) :
    ∀ j k, k ≤ (target + 15) / 16 → (target + 15) / 16 - k ≤ j →
      genKeyAndIvLoop P pw salt target j (kdfAccum P pw salt k) (kdfIter P pw salt k) =
        kdfAccum P pw salt ((target + 15) / 16) := by
  set n := (target + 15) / 16 with hn
  intro j
  induction j with
  | zero =>
    intro k hk hj
    have : k = n := by omega
    subst this
    rfl
  | succ j ih =>
    intro k hk hj
    rw [genKeyAndIvLoop]
    rcases lt_or_ge (16 * k) target with hlt | hge
    · have hcond : (kdfAccum P pw salt k).length < target := by
        rw [kdfAccum_length hmd5]; exact hlt
      rw [if_pos hcond]
      have hk1 : k + 1 ≤ n := by omega
      have hj1 : n - (k + 1) ≤ j := by omega
      have := ih (k + 1) hk1 hj1
      rw [← this]
      rfl
    · have : k = n := by omega
      subst this
      rw [if_neg (by rw [kdfAccum_length hmd5]; omega)]

/-- `gen_key_and_iv` computes exactly the spec's iterated-hash accumulator
(`n = ⌈(key_size + block_size)/16⌉` iterations) and slices key and IV
from it. -/
lemma genKeyAndIv_eq {P : Prims} (hmd5 : ∀ m, (P.md5 m).length = 16)
    (c : Crypto) (salt : List Nat) :
    genKeyAndIv P c salt =
      ((kdfAccum P c.password salt ((c.keySize + 16 + 15) / 16)).take c.keySize,
       ((kdfAccum P c.password salt ((c.keySize + 16 + 15) / 16)).drop c.keySize).take 16) := by
  have h0 : kdfAccum P c.password salt 0 = [] := rfl
  have h1 : kdfIter P c.password salt 0 = [] := rfl
  have hloop := genKeyAndIvLoop_eq hmd5 c.password salt (c.keySize + 16)
    (c.keySize + 16) 0 (by omega) (by omega)
  rw [h0, h1] at hloop
  rw [genKeyAndIv, show Crypto.blockSize = 16 from rfl, hloop]

lemma genKeyAndIv_iv_length {P : Prims} (hG : GoodPrims P) (c : Crypto)
    (salt : List Nat) : (genKeyAndIv P c salt).2.length = 16 := by
  rw [genKeyAndIv_eq hG.md5Len c salt]
  simp only [List.length_take, List.length_drop, kdfAccum_length hG.md5Len]
  omega

/-- The padding length the encrypt loop ends up using, as a function of the
total content length: `block_size - (length mod block_size)`, or a full
block when the length is already block-aligned. -/
def padLenOf (n : Nat) : Nat := if n % 16 = 0 then 16 else 16 - n % 16

lemma padPython_eq_padLenOf (n : Nat) : padPython n = padLenOf n := by
  unfold padPython padLenOf
  rcases Nat.lt_or_ge (n % 16) 16 with h | h
  · split <;> split <;> omega
  · have := Nat.mod_lt n (show 0 < 16 by norm_num)
    omega

lemma padLenOf_pos (n : Nat) : 1 ≤ padLenOf n := by
  unfold padLenOf
  have := Nat.mod_lt n (show 0 < 16 by norm_num)
  split <;> omega

lemma padLenOf_le (n : Nat) : padLenOf n ≤ 16 := by
  unfold padLenOf; split <;> omega

lemma padLenOf_aligned (n : Nat) : (n + padLenOf n) % 16 = 0 := by
  unfold padLenOf
  split <;> omega

lemma padded_length_dvd (content : List Nat) :
    16 ∣ (content ++ List.replicate (padLenOf content.length) (padLenOf content.length)).length := by
  simp only [List.length_append, List.length_replicate]
  exact Nat.dvd_of_mod_eq_zero (padLenOf_aligned content.length)

lemma chunkSize_eq : chunkSize = 16384 := rfl

/-- The streaming content loop of `encrypt_fd` is extensionally a single
cipher update on the whole content followed by its padding block of
`padLenOf` bytes. -/
lemma encContentLoop_eq {P : Prims} {key : List Nat} (hG : GoodPrims P) :
    ∀ fuel (st content : List Nat), st.length = 16 → content.length + 1 ≤ fuel →
      encContentLoop P key fuel ⟨st, []⟩ content =
        ((encUpdate P key st (content ++
            List.replicate (padLenOf content.length) (padLenOf content.length))).1,
         ⟨(encUpdate P key st (content ++
            List.replicate (padLenOf content.length) (padLenOf content.length))).2, []⟩) := by
  intro fuel
  induction fuel with
  | zero => intro st content _ h; omega
  | succ fuel ih =>
    intro st content hst hfuel
    rw [encContentLoop]
    rcases lt_or_ge content.length chunkSize with hlen | hlen
    · -- the first read returns the whole remaining content
      have hchunk : content.take chunkSize = content :=
        List.take_of_length_le (le_of_lt hlen)
      rw [hchunk]
      rcases Decidable.em (content.length = 0 ∨ content.length % 16 ≠ 0) with hcase | hcase
      · rw [if_pos hcase, padPython_eq_padLenOf,
          ctxUpdateEnc_aligned P key st _ (padded_length_dvd content)]
      · -- nonempty block-aligned content shorter than a chunk: one aligned
        -- update, then the recursive call pads an empty final chunk
        push_neg at hcase
        rw [if_neg (by push_neg; exact hcase)]
        have hdvd : 16 ∣ content.length := Nat.dvd_of_mod_eq_zero hcase.2
        rw [ctxUpdateEnc_aligned P key st content hdvd]
        have hdrop : content.drop chunkSize = [] :=
          List.drop_eq_nil_of_le (le_of_lt hlen)
        rw [hdrop, ih (encUpdate P key st content).2 []
          (encUpdate_len hG hst hdvd).2 (by simp only [List.length_nil]; omega)]
        have hpadc : padLenOf content.length = padLenOf 0 := by
          unfold padLenOf; rw [if_pos hcase.2]; rfl
        rw [List.length_nil, List.nil_append, hpadc,
          encUpdate_append hG hst hdvd]
    · -- a full chunk was read; recurse on the remainder
      have hfull : (content.take chunkSize).length = chunkSize := by
        rw [List.length_take]; omega
      rw [if_neg (by rw [hfull, chunkSize_eq]; push_neg; omega)]
      have hdvd : 16 ∣ (content.take chunkSize).length := by
        rw [hfull, chunkSize_eq]
        decide
      rw [ctxUpdateEnc_aligned P key st _ hdvd]
      have hdroplen : (content.drop chunkSize).length + 1 ≤ fuel := by
        rw [List.length_drop, chunkSize_eq]
        rw [chunkSize_eq] at hlen
        omega
      rw [ih (encUpdate P key st (content.take chunkSize)).2 (content.drop chunkSize)
        (encUpdate_len hG hst hdvd).2 hdroplen]
      have hpadeq : padLenOf (content.drop chunkSize).length = padLenOf content.length := by
        unfold padLenOf
        rw [List.length_drop, chunkSize_eq]
        have h16 : (content.length - 16384) % 16 = content.length % 16 := by
          rw [chunkSize_eq] at hlen
          omega
        rw [h16]
      rw [hpadeq]
      have hsplit : content ++ List.replicate (padLenOf content.length) (padLenOf content.length) =
          content.take chunkSize ++ (content.drop chunkSize ++
            List.replicate (padLenOf content.length) (padLenOf content.length)) := by
        rw [← List.append_assoc, List.take_append_drop]
      rw [hsplit, encUpdate_append hG hst hdvd]

/-- The zero-padded pathname region written by `encrypt_fd`. -/
def ppadded (path : List Nat) : List Nat :=
  path ++ (if path.length % 16 ≠ 0 then List.replicate (16 - path.length % 16) 0 else [])

/-- The padded content region written by `encrypt_fd`. -/
def paddedContent (content : List Nat) : List Nat :=
  content ++ List.replicate (padLenOf content.length) (padLenOf content.length)

/-- The footer bytes `encrypt_fd` encrypts after the content. -/
def footerBytesOf (P : Prims) (content : List Nat) (e : FileEntry) : List Nat :=
  P.md5 content ++ beBytes 8 e.size ++ beBytes 4 e.ctime ++ beBytes 4 e.mtime ++
    beBytes 4 (Int.toNat (e.mode % 2 ^ 32)) ++ List.replicate 12 0

lemma ppadded_dvd (path : List Nat) : 16 ∣ (ppadded path).length := by
  unfold ppadded
  rcases Decidable.em (path.length % 16 = 0) with h | h
  · simp only [h, ne_eq, not_true_eq_false, if_false, List.append_nil]
    exact Nat.dvd_of_mod_eq_zero h
  · simp only [ne_eq, h, not_false_eq_true, if_true, List.length_append,
      List.length_replicate]
    apply Nat.dvd_of_mod_eq_zero
    have := Nat.mod_lt path.length (show 0 < 16 by norm_num)
    omega

lemma footerBytesOf_length {P : Prims} (hmd5 : ∀ m, (P.md5 m).length = 16)
    (content : List Nat) (e : FileEntry) :
    (footerBytesOf P content e).length = 48 := by
  simp [footerBytesOf, hmd5, length_beBytes]

lemma paddedContent_dvd (content : List Nat) : 16 ∣ (paddedContent content).length :=
  padded_length_dvd content

lemma ctxFinalize_empty (st : List Nat) : ctxFinalize ⟨st, []⟩ = .ok [] := rfl

lemma exceptOkBind {α β : Type} (x : α) (f : α → Except Err β) :
    ((Except.ok x : Except Err α) >>= f) = f x := rfl

/-- Unfolding of a successful `encrypt_fd` call without compression: the
container is the 16-byte header followed by the CBC encryption of
pathname region, padded content and footer under one chained cipher. -/
lemma encryptFd_ok {P : Prims} (hG : GoodPrims P) (c : Crypto)
    (content : List Nat) (e : FileEntry) (rand : List Nat) (now : Nat)
    (hpath : e.pathname.length ≤ 65535)
    (hsize : e.size < 2 ^ 64) (hct : e.ctime < 2 ^ 32) (hmt : e.mtime < 2 ^ 32)
    (hm1 : -(2 ^ 31) ≤ e.mode) (hm2 : e.mode < 2 ^ 31) :
    encryptFd P c content (some e) 0 rand now =
      .ok (([Crypto.VERSION, 0] ++ beBytes 2 e.pathname.length ++ e.salt.getD rand)
            ++ (encUpdate P (genKeyAndIv P c (e.salt.getD rand)).1
                  (genKeyAndIv P c (e.salt.getD rand)).2 (ppadded e.pathname)).1
            ++ (encUpdate P (genKeyAndIv P c (e.salt.getD rand)).1
                  (encUpdate P (genKeyAndIv P c (e.salt.getD rand)).1
                    (genKeyAndIv P c (e.salt.getD rand)).2 (ppadded e.pathname)).2
                  (paddedContent content)).1
            ++ (encUpdate P (genKeyAndIv P c (e.salt.getD rand)).1
                  (encUpdate P (genKeyAndIv P c (e.salt.getD rand)).1
                    (encUpdate P (genKeyAndIv P c (e.salt.getD rand)).1
                      (genKeyAndIv P c (e.salt.getD rand)).2 (ppadded e.pathname)).2
                    (paddedContent content)).2
                  (footerBytesOf P content e)).1,
           { e with salt := some (e.salt.getD rand), digest := P.md5 content }) := by
  have hps : e.pathname.take (2 ^ 16) = e.pathname :=
    List.take_of_length_le (by omega)
  have hpackH : packH e.pathname.length = .ok (beBytes 2 e.pathname.length) := by
    rw [packH, if_pos hpath]
  have hivlen : (genKeyAndIv P c (e.salt.getD rand)).2.length = 16 :=
    genKeyAndIv_iv_length hG c (e.salt.getD rand)
  have hst1 := (@encUpdate_len P (genKeyAndIv P c (e.salt.getD rand)).1 hG
    (ppadded e.pathname) (genKeyAndIv P c (e.salt.getD rand)).2 hivlen
    (ppadded_dvd e.pathname)).2
  simp only [encryptFd, Option.getD_some, hps, hpackH, exceptOkBind]
  have hbs : Crypto.blockSize = 16 := rfl
  have hand : (0 &&& 255 : Nat) = 0 := rfl
  have hcomp : ((0 &&& 255 : Nat) &&& Crypto.COMPRESS) = 0 := rfl
  simp only [hand, hcomp, hbs, ne_eq, not_true_eq_false, if_false]
  have hfold : (e.pathname ++ if ¬e.pathname.length % 16 = 0 then
      List.replicate (16 - e.pathname.length % 16) 0 else []) = ppadded e.pathname := rfl
  rw [hfold]
  rw [ctxUpdateEnc_aligned P _ _ _ (ppadded_dvd e.pathname)]
  simp only [show (0 &&& Crypto.COMPRESS : Nat) = 0 from rfl, eq_self_iff_true,
    not_true_eq_false, if_false]
  rw [encContentLoop_eq hG (content.length + 1)
    (encUpdate P (genKeyAndIv P c (e.salt.getD rand)).1
      (genKeyAndIv P c (e.salt.getD rand)).2 (ppadded e.pathname)).2 content hst1 (le_refl _)]
  dsimp only
  have hfoot2 : buildFooter { e with salt := some (e.salt.getD rand), digest := P.md5 content } =
      .ok (footerBytesOf P content e) := by
    rw [buildFooter_eq { e with salt := some (e.salt.getD rand), digest := P.md5 content }
      hsize hct hmt hm1 hm2]
    rfl
  rw [hfoot2]
  simp only [exceptOkBind]
  rw [ctxUpdateEnc_aligned P _ _ _ (by rw [footerBytesOf_length hG.md5Len]; decide)]
  dsimp only
  rw [ctxFinalize_empty]
  simp only [exceptOkBind, List.append_nil, List.append_assoc]
  rfl

lemma getD_replicate (x d : Nat) : ∀ p i, i < p → (List.replicate p x).getD i d = x := by
  intro p
  induction p with
  | zero => intro i h; omega
  | succ p ih =>
    intro i h
    cases i with
    | zero => simp [List.replicate]
    | succ i => simpa [List.replicate] using ih i (by omega)

/-- A `decryptor.update` with empty internal buffer on a block-aligned
prefix followed by a partial block emits the decryption of the prefix and
buffers the partial block. -/
lemma ctxUpdateDec_overread (P : Prims) (key st a t : List Nat)
    (ha : 16 ∣ a.length) (ht : t.length < 16) :
    ctxUpdateDec P key ⟨st, []⟩ (a ++ t) =
      ((decUpdate P key st a).1, ⟨(decUpdate P key st a).2, t⟩) := by
  rcases ha with ⟨q, hq⟩
  simp only [ctxUpdateDec, List.nil_append]
  have hlen : (a ++ t).length = 16 * q + t.length := by
    simp [List.length_append, hq]
  have hnb : (a ++ t).length / 16 * 16 = 16 * q := by
    rw [hlen]; omega
  rw [hnb, List.take_append_of_le_length (by omega), List.take_of_length_le (by omega),
    List.drop_append_of_le_length (by omega), List.drop_eq_nil_of_le (by omega),
    List.nil_append]

/-- A `decryptor.update` whose buffered bytes plus new bytes form
block-aligned data emits everything and leaves an empty buffer. -/
lemma ctxUpdateDec_buffered (P : Prims) (key st b data : List Nat)
    (hdvd : 16 ∣ (b ++ data).length) :
    ctxUpdateDec P key ⟨st, b⟩ data =
      ((decUpdate P key st (b ++ data)).1, ⟨(decUpdate P key st (b ++ data)).2, []⟩) := by
  rcases hdvd with ⟨q, hq⟩
  simp only [ctxUpdateDec]
  rw [hq]
  have h1 : 16 * q / 16 * 16 = 16 * q := by omega
  rw [h1, List.take_of_length_le (by rw [hq]), List.drop_eq_nil_of_le (by rw [hq])]

/-- When the whole remaining input fits in one read, the decrypt loop does
exactly one empty-chunk iteration and one finalizing iteration. -/
lemma decLoop_single (P : Prims) (key pn : List Nat) (fuel : Nat)
    (ctx : CipherCtx) (rest acc : List Nat)
    (hne : rest ≠ []) (hlen : rest.length ≤ chunkSize) :
    decLoop P key pn (fuel + 2) [] ctx rest acc =
      match ctxFinalize (ctxUpdateDec P key ctx rest).2 with
      | .error e => some (.error e)
      | .ok fin => decFinish pn acc ((ctxUpdateDec P key ctx rest).1 ++ fin) := by
  have h1 : rest.take chunkSize = rest := List.take_of_length_le hlen
  have h2 : rest.drop chunkSize = [] := List.drop_eq_nil_of_le hlen
  rw [show fuel + 2 = (fuel + 1) + 1 from rfl, decLoop]
  rw [if_pos (by simp), h1, h2, decLoop]
  rw [if_neg (by simpa [List.isEmpty_iff] using hne)]
  rw [if_pos (by simp)]

/-- `decFinish` on a final chunk of the shape `padded content ++ footer`
strips exactly the padding and the 48 footer bytes. -/
lemma decFinish_eq (pn acc content fb : List Nat) {fe : FileEntry}
    (hfb : fb.length = 48) (hfe : unpackFooter pn fb = .ok fe) :
    decFinish pn acc (paddedContent content ++ fb) = some (.ok (acc ++ content, fe)) := by
  have hpc : (paddedContent content).length = content.length + padLenOf content.length := by
    simp [paddedContent]
  have hppos := padLenOf_pos content.length
  have hple := padLenOf_le content.length
  have hptlen : (paddedContent content ++ fb).length =
      content.length + padLenOf content.length + 48 := by
    simp [List.length_append, hpc, hfb]
  have hdrop : (paddedContent content ++ fb).drop
      ((paddedContent content ++ fb).length - 48) = fb := by
    rw [hptlen]
    have : content.length + padLenOf content.length + 48 - 48 =
        (paddedContent content).length := by rw [hpc]; omega
    rw [this, List.drop_left]
  have h49 : ¬ (paddedContent content ++ fb).length < 49 := by rw [hptlen]; omega
  have hpad : (paddedContent content ++ fb).getD
      ((paddedContent content ++ fb).length - 49) 0 = padLenOf content.length := by
    rw [hptlen]
    have hidx : content.length + padLenOf content.length + 48 - 49 =
        content.length + (padLenOf content.length - 1) := by omega
    rw [hidx, List.getD_append _ _ _ _ (by rw [hpc]; omega)]
    rw [paddedContent, List.getD_append_right _ _ _ _ (by omega)]
    have hsub : content.length + (padLenOf content.length - 1) - content.length =
        padLenOf content.length - 1 := by omega
    rw [hsub]
    exact getD_replicate _ _ _ _ (by omega)
  have hstrip : (paddedContent content ++ fb).take
      ((paddedContent content ++ fb).length - (padLenOf content.length + 48)) = content := by
    rw [hptlen]
    have hsub : content.length + padLenOf content.length + 48 -
        (padLenOf content.length + 48) = content.length := by omega
    rw [hsub, List.take_append_of_le_length (by rw [hpc]; omega), paddedContent,
      List.take_append_of_le_length (le_refl _), List.take_of_length_le (le_refl _)]
  unfold decFinish
  rw [hdrop, hfe, hpad]
  dsimp only
  rw [if_neg h49, hstrip]

lemma ppadded_take (path : List Nat) : (ppadded path).take path.length = path := by
  unfold ppadded
  rw [List.take_append_of_le_length (le_refl _), List.take_length]

lemma ppadded_length (path : List Nat) :
    (ppadded path).length =
      if path.length % 16 ≠ 0 then path.length + (16 - path.length % 16)
      else path.length := by
  unfold ppadded
  split
  · next h => simp [List.length_append, if_pos h]
  · next h => simp [List.length_append, if_neg h]

/-- The container produced by a successful compression-free `encrypt_fd`
call: plaintext header, then the chained CBC encryption of the padded
pathname, the padded content and the footer. -/
def containerOf (P : Prims) (c : Crypto) (content : List Nat) (e : FileEntry)
    (rand : List Nat) : List Nat :=
  [Crypto.VERSION, 0] ++ beBytes 2 e.pathname.length ++ e.salt.getD rand
    ++ (encUpdate P (genKeyAndIv P c (e.salt.getD rand)).1
          (genKeyAndIv P c (e.salt.getD rand)).2 (ppadded e.pathname)).1
    ++ (encUpdate P (genKeyAndIv P c (e.salt.getD rand)).1
          (encUpdate P (genKeyAndIv P c (e.salt.getD rand)).1
            (genKeyAndIv P c (e.salt.getD rand)).2 (ppadded e.pathname)).2
          (paddedContent content)).1
    ++ (encUpdate P (genKeyAndIv P c (e.salt.getD rand)).1
          (encUpdate P (genKeyAndIv P c (e.salt.getD rand)).1
            (encUpdate P (genKeyAndIv P c (e.salt.getD rand)).1
              (genKeyAndIv P c (e.salt.getD rand)).2 (ppadded e.pathname)).2
            (paddedContent content)).2
          (footerBytesOf P content e)).1

/-- Restatement of `encryptFd_ok` through `containerOf`. -/
lemma encryptFd_container {P : Prims} (hG : GoodPrims P) (c : Crypto)
    (content : List Nat) (e : FileEntry) (rand : List Nat) (now : Nat)
    (hpath : e.pathname.length ≤ 65535)
    (hsize : e.size < 2 ^ 64) (hct : e.ctime < 2 ^ 32) (hmt : e.mtime < 2 ^ 32)
    (hm1 : -(2 ^ 31) ≤ e.mode) (hm2 : e.mode < 2 ^ 31) :
    encryptFd P c content (some e) 0 rand now =
      .ok (containerOf P c content e rand,
           { e with salt := some (e.salt.getD rand), digest := P.md5 content }) := by
  rw [encryptFd_ok hG c content e rand now hpath hsize hct hmt hm1 hm2]
  rfl

/-- The footer bytes in right-associated form, as `unpackFooter_fields`
wants them. -/
lemma footerBytesOf_assoc (P : Prims) (content : List Nat) (e : FileEntry) :
    footerBytesOf P content e =
      P.md5 content ++ (beBytes 8 e.size ++ (beBytes 4 e.ctime ++
        (beBytes 4 e.mtime ++ (beBytes 4 (Int.toNat (e.mode % 2 ^ 32)) ++
          List.replicate 12 0)))) := by
  simp [footerBytesOf, List.append_assoc]

/-- Unpacking the footer written by `encrypt_fd` recovers the entry's
numeric fields and the digest. -/
lemma unpackFooter_footerBytesOf {P : Prims} (hG : GoodPrims P)
    (pn content : List Nat) (e : FileEntry)
    (hsize : e.size < 2 ^ 64) (hct : e.ctime < 2 ^ 32) (hmt : e.mtime < 2 ^ 32)
    (hm1 : -(2 ^ 31) ≤ e.mode) (hm2 : e.mode < 2 ^ 31) :
    unpackFooter pn (footerBytesOf P content e) =
      .ok { pathname := pn, size := e.size, ctime := e.ctime, mtime := e.mtime,
            mode := e.mode, digest := P.md5 content, salt := none, isDir := false } := by
  rw [footerBytesOf_assoc,
    unpackFooter_fields pn _ _ _ _ _ _ (hG.md5Len content) (length_beBytes 8 e.size)
      (length_beBytes 4 e.ctime) (length_beBytes 4 e.mtime)
      (length_beBytes 4 (Int.toNat (e.mode % 2 ^ 32)))]
  have h64 : (256 : Nat) ^ 8 = 2 ^ 64 := by norm_num
  have h32 : (256 : Nat) ^ 4 = 2 ^ 32 := by norm_num
  rw [beNat_beBytes 8 e.size (by rw [h64]; exact hsize),
    beNat_beBytes 4 e.ctime (by rw [h32]; exact hct),
    beNat_beBytes 4 e.mtime (by rw [h32]; exact hmt),
    sDec_packi_val e.mode hm1 hm2]

/-- Decrypting the container written by a compression-free `encrypt_fd`
recovers the content on the sink and reconstructs the entry. -/
lemma decryptFd_container {P : Prims} (hG : GoodPrims P) (c : Crypto)
    (content : List Nat) (e : FileEntry) (rand : List Nat)
    (hsalt : (e.salt.getD rand).length = 12)
    (hpath : e.pathname.length ≤ 65535)
    (hsize : e.size < 2 ^ 64) (hct : e.ctime < 2 ^ 32) (hmt : e.mtime < 2 ^ 32)
    (hm1 : -(2 ^ 31) ≤ e.mode) (hm2 : e.mode < 2 ^ 31)
    (hclen : content.length ≤ 16320) :
    decryptFd P c (containerOf P c content e rand) =
      Outcome.ok content
        { pathname := e.pathname, size := e.size, ctime := e.ctime, mtime := e.mtime,
          mode := e.mode, digest := P.md5 content, salt := some (e.salt.getD rand),
          isDir := false } := by
  have hivlen : (genKeyAndIv P c (e.salt.getD rand)).2.length = 16 :=
    genKeyAndIv_iv_length hG c (e.salt.getD rand)
  have hassoc2 : containerOf P c content e rand =
      ([Crypto.VERSION, 0] ++ beBytes 2 e.pathname.length ++ e.salt.getD rand) ++
        ((encUpdate P (genKeyAndIv P c (e.salt.getD rand)).1
            (genKeyAndIv P c (e.salt.getD rand)).2 (ppadded e.pathname)).1 ++
         ((encUpdate P (genKeyAndIv P c (e.salt.getD rand)).1
             (encUpdate P (genKeyAndIv P c (e.salt.getD rand)).1
               (genKeyAndIv P c (e.salt.getD rand)).2 (ppadded e.pathname)).2
             (paddedContent content)).1 ++
          (encUpdate P (genKeyAndIv P c (e.salt.getD rand)).1
             (encUpdate P (genKeyAndIv P c (e.salt.getD rand)).1
               (encUpdate P (genKeyAndIv P c (e.salt.getD rand)).1
                 (genKeyAndIv P c (e.salt.getD rand)).2 (ppadded e.pathname)).2
               (paddedContent content)).2
             (footerBytesOf P content e)).1)) := by
    simp only [containerOf, List.append_assoc]
  rw [hassoc2]
  set salt := e.salt.getD rand with hsaltdef
  set key := (genKeyAndIv P c salt).1 with hkeydef
  set iv := (genKeyAndIv P c salt).2 with hivdef
  set pp := ppadded e.pathname with hppdef
  set c1 := (encUpdate P key iv pp).1 with hc1def
  set st1 := (encUpdate P key iv pp).2 with hst1def
  set pc := paddedContent content with hpcdef
  set c2 := (encUpdate P key st1 pc).1 with hc2def
  set st2 := (encUpdate P key st1 pc).2 with hst2def
  set fbb := footerBytesOf P content e with hfbbdef
  set c3 := (encUpdate P key st2 fbb).1 with hc3def
  set ps := e.pathname.length with hpsdef
  have hst1len : st1.length = 16 :=
    (@encUpdate_len P key hG pp iv hivlen (ppadded_dvd e.pathname)).2
  have hc1len : c1.length = pp.length :=
    (@encUpdate_len P key hG pp iv hivlen (ppadded_dvd e.pathname)).1
  have hpcdvd : 16 ∣ pc.length := paddedContent_dvd content
  have hst2len : st2.length = 16 :=
    (@encUpdate_len P key hG pc st1 hst1len hpcdvd).2
  have hc2len : c2.length = pc.length :=
    (@encUpdate_len P key hG pc st1 hst1len hpcdvd).1
  have hfbblen : fbb.length = 48 := footerBytesOf_length hG.md5Len content e
  have hfbbdvd : 16 ∣ fbb.length := by rw [hfbblen]; decide
  have hc3len : c3.length = 48 := by
    have h := (@encUpdate_len P key hG fbb st2 hst2len hfbbdvd).1
    rw [hc3def, h, hfbblen]
  have hpclen : pc.length = content.length + padLenOf content.length := by
    rw [hpcdef]; simp [paddedContent]
  have hppos := padLenOf_pos content.length
  have hple := padLenOf_le content.length
  have hpcge : 16 ≤ pc.length := Nat.le_of_dvd (by omega) hpcdvd
  have hpcle : pc.length ≤ 16336 := by omega
  have hbe2 : beBytes 2 ps = [ps / 256 % 256, ps % 256] := by simp [beBytes]
  have hhdrlen : ([Crypto.VERSION, 0] ++ beBytes 2 ps ++ salt).length = 16 := by
    simp [List.length_append, length_beBytes, hsalt]
  simp only [decryptFd]
  rw [show Crypto.blockSize = 16 from rfl]
  rw [take_append_exact hhdrlen, drop_append_exact hhdrlen]
  rw [if_neg (by rw [hhdrlen]; omega)]
  have hgd0 : ([Crypto.VERSION, 0] ++ beBytes 2 ps ++ salt).getD 0 0 = 1 := by rw [hbe2]; rfl
  have hgd2 : ([Crypto.VERSION, 0] ++ beBytes 2 ps ++ salt).getD 2 0 = ps / 256 % 256 := by
    rw [hbe2]; rfl
  have hgd3 : ([Crypto.VERSION, 0] ++ beBytes 2 ps ++ salt).getD 3 0 = ps % 256 := by
    rw [hbe2]; rfl
  have hgd1 : ([Crypto.VERSION, 0] ++ beBytes 2 ps ++ salt).getD 1 0 = 0 := by rw [hbe2]; rfl
  have hdrop4 : ([Crypto.VERSION, 0] ++ beBytes 2 ps ++ salt).drop 4 = salt := by rw [hbe2]; rfl
  rw [hgd0, if_neg (by decide), hgd1, hgd2, hgd3, hdrop4]
  have hpsparse : 256 * (ps / 256 % 256) + ps % 256 = ps := by omega
  rw [hpsparse, ← hkeydef, ← hivdef]
  have hc23len : (c2 ++ c3).length = pc.length + 48 := by
    simp [List.length_append, hc2len, hc3len]
  have hc23dvd : 16 ∣ (c2 ++ c3).length := by
    rw [hc23len]
    exact Nat.dvd_add hpcdvd (by decide)
  have hc23ne : c2 ++ c3 ≠ [] := by
    apply List.ne_nil_of_length_pos
    rw [hc23len]; omega
  have hc23le : (c2 ++ c3).length ≤ chunkSize := by
    rw [hc23len, chunkSize_eq]; omega
  have hpcfbbdvd : 16 ∣ (pc ++ fbb).length := by
    rw [List.length_append]
    exact Nat.dvd_add hpcdvd hfbbdvd
  have hc2c3 : c2 ++ c3 = (encUpdate P key st1 (pc ++ fbb)).1 := by
    rw [encUpdate_append hG hst1len hpcdvd]
  have hfeOK : unpackFooter e.pathname fbb =
      .ok { pathname := e.pathname, size := e.size, ctime := e.ctime, mtime := e.mtime,
            mode := e.mode, digest := P.md5 content, salt := none, isDir := false } :=
    unpackFooter_footerBytesOf hG e.pathname content e hsize hct hmt hm1 hm2
  have htk16 : (P.md5 content).take 16 = P.md5 content :=
    List.take_of_length_le (le_of_eq (hG.md5Len content))
  rcases Decidable.em (ps % 16 = 0) with hps16 | hps16
  · -- block-aligned pathname: the pathname read consumes exactly c1
    have hcond : ¬ (ps % 16 ≠ 0) := by rw [hps16]; simp
    simp only [if_neg hcond]
    have hc1ps : c1.length = ps := by
      rw [hc1len, hppdef, ppadded_length, ← hpsdef, if_neg hcond]
    rw [take_append_exact hc1ps, drop_append_exact hc1ps]
    rw [if_neg (by rw [hc1ps]; omega)]
    rw [ctxUpdateDec_aligned P key iv c1 (by rw [hc1ps]; exact Nat.dvd_of_mod_eq_zero hps16)]
    rw [hc1def, decUpdate_encUpdate hG hivlen (by rw [hppdef]; exact ppadded_dvd e.pathname)]
    dsimp only
    rw [show List.take ps pp = e.pathname from by rw [hppdef, hpsdef]; exact ppadded_take e.pathname]
    rw [← hst1def]
    rw [decLoop_single P key e.pathname (c2 ++ c3).length ⟨st1, []⟩ (c2 ++ c3) [] hc23ne hc23le]
    rw [ctxUpdateDec_aligned P key st1 (c2 ++ c3) hc23dvd]
    rw [hc2c3, decUpdate_encUpdate hG hst1len hpcfbbdvd]
    dsimp only
    rw [ctxFinalize_empty]
    dsimp only
    rw [List.append_nil, hpcdef, decFinish_eq e.pathname [] content fbb hfbblen hfeOK]
    dsimp only
    rw [List.nil_append, htk16]
    rw [if_neg (by simp)]
    rw [if_neg (by decide)]
  · -- unaligned pathname: the pathname read overshoots by ps % 16 bytes,
    -- which the decryptor context buffers until the next update
    simp only [if_pos hps16]
    have hxlt : ps % 16 < 16 := Nat.mod_lt ps (by norm_num)
    have hx1 : 1 ≤ ps % 16 := by omega
    have hc1len' : c1.length = ps + (16 - ps % 16) := by
      rw [hc1len, hppdef, ppadded_length, ← hpsdef, if_pos hps16]
    have hc1dvd : 16 ∣ c1.length := by
      rw [hc1len, hppdef]; exact ppadded_dvd e.pathname
    have hxle : ps % 16 ≤ c2.length := by rw [hc2len]; omega
    have hpbs : ps + 16 = c1.length + ps % 16 := by rw [hc1len']; omega
    rw [hpbs, List.take_append, List.drop_append,
      List.take_append_of_le_length hxle, List.drop_append_of_le_length hxle]
    have htlen : (c2.take (ps % 16)).length = ps % 16 := by
      rw [List.length_take, min_eq_left hxle]
    rw [if_neg (by
      simp only [List.length_append, htlen]
      omega)]
    rw [ctxUpdateDec_overread P key iv c1 (c2.take (ps % 16)) hc1dvd (by rw [htlen]; omega)]
    rw [hc1def, decUpdate_encUpdate hG hivlen (by rw [hppdef]; exact ppadded_dvd e.pathname)]
    dsimp only
    rw [show List.take ps pp = e.pathname from by
      rw [hppdef, hpsdef]; exact ppadded_take e.pathname]
    rw [← hst1def]
    have hjoin : c2.take (ps % 16) ++ (c2.drop (ps % 16) ++ c3) = c2 ++ c3 := by
      rw [← List.append_assoc, List.take_append_drop]
    have hdclen : (c2.drop (ps % 16) ++ c3).length = pc.length - ps % 16 + 48 := by
      simp only [List.length_append, List.length_drop, hc2len, hc3len]
    have hdcne : c2.drop (ps % 16) ++ c3 ≠ [] := by
      apply List.ne_nil_of_length_pos
      rw [hdclen]; omega
    have hdcle : (c2.drop (ps % 16) ++ c3).length ≤ chunkSize := by
      rw [hdclen, chunkSize_eq]; omega
    rw [decLoop_single P key e.pathname (c2.drop (ps % 16) ++ c3).length
      ⟨st1, c2.take (ps % 16)⟩ (c2.drop (ps % 16) ++ c3) [] hdcne hdcle]
    rw [ctxUpdateDec_buffered P key st1 (c2.take (ps % 16)) (c2.drop (ps % 16) ++ c3)
      (by rw [hjoin]; exact hc23dvd)]
    rw [hjoin, hc2c3, decUpdate_encUpdate hG hst1len hpcfbbdvd]
    dsimp only
    rw [ctxFinalize_empty]
    dsimp only
    rw [List.append_nil, hpcdef, decFinish_eq e.pathname [] content fbb hfbblen hfeOK]
    dsimp only
    rw [List.nil_append, htk16]
    rw [if_neg (by simp)]
    rw [if_neg (by decide)]

lemma decUpdate_len_aux {P : Prims} {key : List Nat} (hG : GoodPrims P) :
    ∀ n data st, data.length ≤ n → st.length = 16 → 16 ∣ data.length →
      (decUpdate P key st data).1.length = data.length := by
  intro n
  induction n with
  | zero =>
    intro data st h1 _ _
    have : data = [] := List.length_eq_zero.mp (Nat.le_antisymm h1 (Nat.zero_le _))
    subst this
    simp [decUpdate_nil]
  | succ n ih =>
    intro data st h1 hst hdvd
    rcases eq_or_ne data [] with rfl | hne
    · simp [decUpdate_nil]
    · have hlen16 : 16 ≤ data.length :=
        Nat.le_of_dvd (List.length_pos.mpr hne) hdvd
      have htake : (data.take 16).length = 16 := by
        simp [List.length_take, Nat.min_eq_left hlen16]
      have hplen : (zipXor st (P.aesDec key (data.take 16))).length = 16 := by
        rw [zipXor_length, hst, hG.decLen key _ htake]; simp
      have hdropn : (data.drop 16).length ≤ n := by
        simp only [List.length_drop]; omega
      have hdvd' : 16 ∣ (data.drop 16).length := by
        simp only [List.length_drop]
        exact (Nat.dvd_sub' hdvd (dvd_refl 16))
      have := ih (data.drop 16) (data.take 16) hdropn htake hdvd'
      rw [decUpdate_step P key st hne]
      simp only [List.length_append, hplen, this, List.length_drop]
      omega

lemma decUpdate_len {P : Prims} {key : List Nat} (hG : GoodPrims P)
    {data st : List Nat} (hst : st.length = 16) (hdvd : 16 ∣ data.length) :
    (decUpdate P key st data).1.length = data.length :=
  decUpdate_len_aux hG data.length data st (le_refl _) hst hdvd

/-- Bind of an error in `Except` short-circuits. -/
lemma exceptErrBind {α β : Type} (er : Err) (f : α → Except Err β) :
    ((Except.error er : Except Err α) >>= f) = .error er := rfl

/-- When the remaining input needs exactly two reads, the decrypt loop does
one empty-chunk iteration, one streaming iteration and one finalizing
iteration; the footer is sought only in the SECOND chunk's plaintext. -/
lemma decLoop_double (P : Prims) (key pn : List Nat) (fuel : Nat)
    (ctx : CipherCtx) (rest acc : List Nat)
    (hgt : chunkSize < rest.length) (hle : rest.length ≤ 2 * chunkSize) :
    decLoop P key pn (fuel + 3) [] ctx rest acc =
      match ctxFinalize (ctxUpdateDec P key
          (ctxUpdateDec P key ctx (rest.take chunkSize)).2 (rest.drop chunkSize)).2 with
      | .error e => some (.error e)
      | .ok fin =>
        decFinish pn (acc ++ (ctxUpdateDec P key ctx (rest.take chunkSize)).1)
          ((ctxUpdateDec P key
             (ctxUpdateDec P key ctx (rest.take chunkSize)).2 (rest.drop chunkSize)).1 ++ fin) := by
  have htlen : (rest.take chunkSize).length = chunkSize := by
    rw [List.length_take]; omega
  have htne : rest.take chunkSize ≠ [] := by
    apply List.ne_nil_of_length_pos
    rw [htlen, chunkSize_eq]; omega
  have hdne : rest.drop chunkSize ≠ [] := by
    apply List.ne_nil_of_length_pos
    rw [List.length_drop]; omega
  have hdlen : (rest.drop chunkSize).length ≤ chunkSize := by
    rw [List.length_drop]; omega
  have hdtake : (rest.drop chunkSize).take chunkSize = rest.drop chunkSize :=
    List.take_of_length_le hdlen
  have hddrop : (rest.drop chunkSize).drop chunkSize = [] :=
    List.drop_eq_nil_of_le hdlen
  rw [show fuel + 3 = ((fuel + 1) + 1) + 1 from rfl, decLoop]
  rw [if_pos (by simp), decLoop]
  rw [if_neg (by simpa [List.isEmpty_iff] using htne), hdtake, hddrop]
  rw [if_neg (by simpa [List.isEmpty_iff] using hdne), decLoop]
  rw [if_neg (by simpa [List.isEmpty_iff] using hdne)]
  rw [if_pos (by simp)]

/-- `_unpack_footer` can only raise `struct.error`. -/
lemma unpackFooter_error {pn f : List Nat} {er : Err}
    (h : unpackFooter pn f = .error er) : er = Err.structError := by
  simp only [unpackFooter] at h
  split at h
  · exact (Except.error.injEq _ _ ▸ h).symm
  · cases h

/-- The finalizing step can only raise `struct.error` or `IndexError`. -/
lemma decFinish_error {pn acc pt : List Nat} {er : Err}
    (h : decFinish pn acc pt = some (.error er)) :
    er = Err.structError ∨ er = Err.indexError := by
  unfold decFinish at h
  split at h
  · next e2 heq =>
    simp only [Option.some.injEq, Except.error.injEq] at h
    exact Or.inl (h ▸ unpackFooter_error heq)
  · split at h
    · simp only [Option.some.injEq, Except.error.injEq] at h
      exact Or.inr h.symm
    · cases h

/-- The decrypt loop never reports a version, content-recognition, digest
or key error: its only failure modes are cipher finalisation
(`ValueError`), footer unpacking (`struct.error`) and the padding-byte
read (`IndexError`). -/
lemma decLoop_no_version (P : Prims) (key pn : List Nat) :
    ∀ fuel nc ctx rest acc er, er = Err.versionNotCompatible ∨ er = Err.unrecognizedContent ∨
        er = Err.digestMissMatch ∨ er = Err.invalidKey →
      decLoop P key pn fuel nc ctx rest acc ≠ some (.error er) := by
  intro fuel
  induction fuel with
  | zero => intro nc ctx rest acc er _ h; simp [decLoop] at h
  | succ fuel ih =>
    intro nc ctx rest acc er her h
    rw [decLoop] at h
    split at h
    · exact ih _ _ _ _ er her h
    · split at h
      · rcases hfin : ctxFinalize (ctxUpdateDec P key ctx nc).2 with er2 | fin
        · rw [hfin] at h
          simp only [Option.some.injEq, Except.error.injEq] at h
          unfold ctxFinalize at hfin
          split at hfin
          · cases hfin
          · have : er2 = Err.valueError := (Except.error.injEq _ _ ▸ hfin).symm
            rw [h] at this
            rcases her with h2 | h2 | h2 | h2 <;> rw [h2] at this <;> cases this
        · rw [hfin] at h
          rcases decFinish_error h with h2 | h2 <;>
            rcases her with h3 | h3 | h3 | h3 <;> rw [h3] at h2 <;> cases h2
      · exact ih _ _ _ _ er her h

/-- A footer slice shorter than 36 bytes makes `unpack(b'!QIIi', ·)` raise
`struct.error`. -/
lemma unpackFooter_short {pn f : List Nat} (h : f.length < 36) :
    unpackFooter pn f = .error .structError := by
  simp only [unpackFooter]
  rw [if_pos]
  simp only [List.length_take, List.length_drop]
  omega

/-- A final decrypted chunk shorter than 36 bytes makes the finalizing
step fail with `struct.error` (the footer slice is too short to unpack). -/
lemma decFinish_short {pn acc pt : List Nat} (h : pt.length < 36) :
    decFinish pn acc pt = some (.error .structError) := by
  unfold decFinish
  rw [show pt.length - 48 = 0 from by omega, List.drop_zero, unpackFooter_short h]

/-- The `pathname_size` field a raw input stream carries (bytes 2-3 of the
header, big-endian). -/
def psOf (input : List Nat) : Nat :=
  256 * (input.take 16).getD 2 0 + (input.take 16).getD 3 0

/-- The `pathname_block_size` the decryptor computes:
`int((pathname_size/bs + 1) * bs)` under Python's true division, which is
exactly `pathname_size + 16` when the size is not block-aligned, else
`pathname_size`. -/
def pbsOf (input : List Nat) : Nat :=
  if psOf input % 16 ≠ 0 then psOf input + 16 else psOf input

/-- A concrete primitive instance used to witness the theorems: the
"block cipher" xors with the (padded) key, and the "hash" is the first 16
bytes of the zero-padded message. -/
def P0 : Prims :=
  { aesEnc := fun k b => zipXor ((k ++ List.replicate 16 0).take 16) b
    aesDec := fun k b => zipXor ((k ++ List.replicate 16 0).take 16) b
    md5 := fun m => (m ++ List.replicate 16 0).take 16
    zlibCompress := id
    zlibDecompress := id }

lemma P0_good : GoodPrims P0 := by
  have hk : ∀ k : List Nat, ((k ++ List.replicate 16 0).take 16).length = 16 := by
    intro k
    simp [List.length_take, List.length_append]
  refine ⟨?_, ?_, ?_, ?_⟩
  · intro k b hb
    simp only [P0, zipXor_length, hk, hb, min_self]
  · intro k b hb
    simp only [P0, zipXor_length, hk, hb, min_self]
  · intro k b hb
    simp only [P0]
    exact zipXor_zipXor _ b (by rw [hk, hb])
  · intro m
    simp [P0, List.length_take, List.length_append]

/-- A concrete engine configuration (empty password, default key size). -/
def c0 : Crypto := { password := [] }

/-- Concrete stand-in for `os.urandom(12)`. -/
def rand0 : List Nat := List.replicate 12 0

/-- A concrete entry with an empty pathname and no salt or digest. -/
def entry0 : FileEntry :=
  { pathname := [], size := 1, ctime := 2, mtime := 3, mode := 4 }

/-- A footer whose digest field (16 one-bytes) does not match the content
digest of the one-byte content `[1]` under `P0`. -/
def badFooter : List Nat :=
  List.replicate 16 1 ++ beBytes 8 1 ++ beBytes 4 2 ++ beBytes 4 3 ++
    beBytes 4 4 ++ List.replicate 12 0

/-- A syntactically valid container for content `[1]` whose stored digest
is wrong: decrypting it must fail the digest comparison. -/
def badContainer : List Nat :=
  [1, 0] ++ beBytes 2 0 ++ rand0 ++
    (encUpdate P0 (genKeyAndIv P0 c0 rand0).1 (genKeyAndIv P0 c0 rand0).2
      (paddedContent [1] ++ badFooter)).1

/-- C3: `gen_key_and_iv` implements exactly the stated iterative-hashing
algorithm over a 16-byte-digest hash: the returned pair slices the first
`key_size` bytes (key) and the next `block_size` bytes (IV) from the
accumulator `d_1 ‖ ... ‖ d_n` of rolling digests
`d_i = hash(d_{i-1} ‖ password ‖ salt)` (with `d_0` empty), where
`n = ⌈(key_size + block_size)/16⌉` is minimal with
`len(d) ≥ key_size + block_size`; and it is deterministic — equal
password/salt inputs yield the identical (key, iv) pair (the embedding is
a pure function of its inputs). -/
theorem c3_gen_key_and_iv_iterative_hash (P : Prims)
    (hmd5 : ∀ m, (P.md5 m).length = 16) (c : Crypto) (salt : List Nat) :
    genKeyAndIv P c salt =
      ((kdfAccum P c.password salt ((c.keySize + 16 + 15) / 16)).take c.keySize,
       ((kdfAccum P c.password salt ((c.keySize + 16 + 15) / 16)).drop c.keySize).take 16) ∧
    c.keySize + 16 ≤ (kdfAccum P c.password salt ((c.keySize + 16 + 15) / 16)).length ∧
    (∀ m < (c.keySize + 16 + 15) / 16, (kdfAccum P c.password salt m).length < c.keySize + 16) ∧
    (∀ p2 s2, p2 = c.password → s2 = salt →
      genKeyAndIv P { password := p2, keySize := c.keySize } s2 = genKeyAndIv P c salt) := by
  refine ⟨genKeyAndIv_eq hmd5 c salt, ?_, ?_, ?_⟩
  · rw [kdfAccum_length hmd5]; omega
  · intro m hm
    rw [kdfAccum_length hmd5]; omega
  · intro p2 s2 h1 h2
    subst h1; subst h2
    rfl

/-- Witness for C3 at the concrete primitives, configuration and salt. -/
theorem c3_witness :
    (∀ m, (P0.md5 m).length = 16) ∧
    genKeyAndIv P0 c0 rand0 =
      ((kdfAccum P0 [] rand0 3).take 32, ((kdfAccum P0 [] rand0 3).drop 32).take 16) :=
  ⟨P0_good.md5Len, (c3_gen_key_and_iv_iterative_hash P0 P0_good.md5Len c0 rand0).1⟩

/-- C4: `_build_footer` returns exactly 48 bytes laid out as 16-byte
digest, big-endian uint64 size, big-endian uint32 ctime, big-endian
uint32 mtime, big-endian int32 mode (two's complement) and 12 zero bytes;
`_unpack_footer` is its inverse for any pathname, and the trailing 12
bytes are ignored (any 12-byte replacement unpacks identically). -/
theorem c4_footer_codec_roundtrip (e : FileEntry)
    (hd : e.digest.length = 16)
    (hsize : e.size < 2 ^ 64) (hct : e.ctime < 2 ^ 32) (hmt : e.mtime < 2 ^ 32)
    (hm1 : -(2 ^ 31) ≤ e.mode) (hm2 : e.mode < 2 ^ 31) :
    ∃ fb, buildFooter e = .ok fb ∧
      fb = e.digest ++ beBytes 8 e.size ++ beBytes 4 e.ctime ++ beBytes 4 e.mtime ++
        beBytes 4 (Int.toNat (e.mode % 2 ^ 32)) ++ List.replicate 12 0 ∧
      fb.length = 48 ∧
      (∀ pn, unpackFooter pn fb =
        .ok { pathname := pn, size := e.size, ctime := e.ctime, mtime := e.mtime,
              mode := e.mode, digest := e.digest, salt := none, isDir := false }) ∧
      (∀ pn junk, unpackFooter pn (fb.take 36 ++ junk) =
        .ok { pathname := pn, size := e.size, ctime := e.ctime, mtime := e.mtime,
              mode := e.mode, digest := e.digest, salt := none, isDir := false }) := by
  have h64 : (256 : Nat) ^ 8 = 2 ^ 64 := by norm_num
  have h32 : (256 : Nat) ^ 4 = 2 ^ 32 := by norm_num
  have hfields : ∀ z pn, unpackFooter pn (e.digest ++ (beBytes 8 e.size ++
      (beBytes 4 e.ctime ++ (beBytes 4 e.mtime ++
        (beBytes 4 (Int.toNat (e.mode % 2 ^ 32)) ++ z))))) =
      .ok { pathname := pn, size := e.size, ctime := e.ctime, mtime := e.mtime,
            mode := e.mode, digest := e.digest, salt := none, isDir := false } := by
    intro z pn
    rw [unpackFooter_fields pn _ _ _ _ _ _ hd (length_beBytes 8 e.size)
      (length_beBytes 4 e.ctime) (length_beBytes 4 e.mtime)
      (length_beBytes 4 (Int.toNat (e.mode % 2 ^ 32)))]
    rw [beNat_beBytes 8 e.size (by rw [h64]; exact hsize),
      beNat_beBytes 4 e.ctime (by rw [h32]; exact hct),
      beNat_beBytes 4 e.mtime (by rw [h32]; exact hmt),
      sDec_packi_val e.mode hm1 hm2]
  refine ⟨_, buildFooter_eq e hsize hct hmt hm1 hm2, rfl, ?_, ?_, ?_⟩
  · simp [List.length_append, hd, length_beBytes]
  · intro pn
    have hassoc : e.digest ++ beBytes 8 e.size ++ beBytes 4 e.ctime ++ beBytes 4 e.mtime ++
        beBytes 4 (Int.toNat (e.mode % 2 ^ 32)) ++ List.replicate 12 0 =
        e.digest ++ (beBytes 8 e.size ++ (beBytes 4 e.ctime ++ (beBytes 4 e.mtime ++
          (beBytes 4 (Int.toNat (e.mode % 2 ^ 32)) ++ List.replicate 12 0)))) := by
      simp [List.append_assoc]
    rw [hassoc]
    exact hfields _ pn
  · intro pn junk
    have htk36 : (e.digest ++ beBytes 8 e.size ++ beBytes 4 e.ctime ++ beBytes 4 e.mtime ++
        beBytes 4 (Int.toNat (e.mode % 2 ^ 32)) ++ List.replicate 12 0).take 36 =
        e.digest ++ beBytes 8 e.size ++ beBytes 4 e.ctime ++ beBytes 4 e.mtime ++
          beBytes 4 (Int.toNat (e.mode % 2 ^ 32)) :=
      take_append_exact (by simp [List.length_append, hd, length_beBytes])
    rw [htk36]
    have hassoc2 : e.digest ++ beBytes 8 e.size ++ beBytes 4 e.ctime ++ beBytes 4 e.mtime ++
        beBytes 4 (Int.toNat (e.mode % 2 ^ 32)) ++ junk =
        e.digest ++ (beBytes 8 e.size ++ (beBytes 4 e.ctime ++ (beBytes 4 e.mtime ++
          (beBytes 4 (Int.toNat (e.mode % 2 ^ 32)) ++ junk)))) := by
      simp [List.append_assoc]
    rw [hassoc2]
    exact hfields junk pn

/-- A concrete in-range entry for the C4 witness. -/
def entry4 : FileEntry :=
  { pathname := [1], size := 300, ctime := 7, mtime := 9, mode := -5,
    digest := List.replicate 16 7 }

/-- Witness for C4 at a concrete in-range entry. -/
theorem c4_witness :
    (List.replicate 16 7).length = 16 ∧
    ∃ fb, buildFooter entry4 = .ok fb ∧
      fb = List.replicate 16 7 ++ beBytes 8 300 ++ beBytes 4 7 ++ beBytes 4 9 ++
        beBytes 4 (Int.toNat ((-5 : Int) % 2 ^ 32)) ++ List.replicate 12 0 ∧
      fb.length = 48 ∧
      (∀ pn, unpackFooter pn fb =
        .ok { pathname := pn, size := 300, ctime := 7, mtime := 9,
              mode := -5, digest := List.replicate 16 7, salt := none, isDir := false }) ∧
      (∀ pn junk, unpackFooter pn (fb.take 36 ++ junk) =
        .ok { pathname := pn, size := 300, ctime := 7, mtime := 9,
              mode := -5, digest := List.replicate 16 7, salt := none, isDir := false }) :=
  ⟨by decide,
   c4_footer_codec_roundtrip entry4 (by decide) (by decide) (by decide) (by decide)
     (by decide) (by decide)⟩

/-- C5: the encrypt loop always applies `padLenOf` padding — content whose
length is a block multiple (including empty content) receives a full
extra block of `block_size` bytes each equal to `block_size`, otherwise
`block_size - (len mod block_size)` bytes, so at least one pad byte is
always present — and decryption strips exactly that padding, so content
lengths 0, 15, 16 and 17 all round-trip exactly. -/
theorem c5_padding_roundtrip {P : Prims} (hG : GoodPrims P) (c : Crypto) :
    (∀ (key st content : List Nat) (fuel : Nat), st.length = 16 → content.length + 1 ≤ fuel →
      encContentLoop P key fuel ⟨st, []⟩ content =
        ((encUpdate P key st (content ++
            List.replicate (padLenOf content.length) (padLenOf content.length))).1,
         ⟨(encUpdate P key st (content ++
            List.replicate (padLenOf content.length) (padLenOf content.length))).2, []⟩)) ∧
    (∀ n, padLenOf n = (if n % 16 = 0 then 16 else 16 - n % 16) ∧
      1 ≤ padLenOf n ∧ padLenOf n ≤ 16) ∧
    (∀ (content : List Nat) (e : FileEntry) (rand : List Nat) (now : Nat),
      (e.salt.getD rand).length = 12 → e.pathname.length ≤ 65535 →
      e.size < 2 ^ 64 → e.ctime < 2 ^ 32 → e.mtime < 2 ^ 32 →
      -(2 ^ 31) ≤ e.mode → e.mode < 2 ^ 31 →
      (content.length = 0 ∨ content.length = 15 ∨ content.length = 16 ∨
        content.length = 17) →
      encryptFd P c content (some e) 0 rand now =
        .ok (containerOf P c content e rand,
             { e with salt := some (e.salt.getD rand), digest := P.md5 content }) ∧
      decryptFd P c (containerOf P c content e rand) =
        Outcome.ok content
          { pathname := e.pathname, size := e.size, ctime := e.ctime, mtime := e.mtime,
            mode := e.mode, digest := P.md5 content, salt := some (e.salt.getD rand),
            isDir := false }) := by
  refine ⟨fun key st content fuel hst hf => encContentLoop_eq hG fuel st content hst hf,
    fun n => ⟨rfl, padLenOf_pos n, padLenOf_le n⟩,
    fun content e rand now h1 h2 h3 h4 h5 h6 h7 hlen => ?_⟩
  have hclen : content.length ≤ 16320 := by rcases hlen with h | h | h | h <;> omega
  exact ⟨encryptFd_container hG c content e rand now h2 h3 h4 h5 h6 h7,
    decryptFd_container hG c content e rand h1 h2 h3 h4 h5 h6 h7 hclen⟩

/-- Witness for C5 at concrete primitives and a 15-byte content. -/
theorem c5_witness :
    ((entry0.salt.getD rand0).length = 12 ∧ (List.replicate 15 7).length = 15) ∧
    (encryptFd P0 c0 (List.replicate 15 7) (some entry0) 0 rand0 0 =
        .ok (containerOf P0 c0 (List.replicate 15 7) entry0 rand0,
             { entry0 with salt := some (entry0.salt.getD rand0),
                           digest := P0.md5 (List.replicate 15 7) }) ∧
      decryptFd P0 c0 (containerOf P0 c0 (List.replicate 15 7) entry0 rand0) =
        Outcome.ok (List.replicate 15 7)
          { pathname := entry0.pathname, size := entry0.size, ctime := entry0.ctime,
            mtime := entry0.mtime, mode := entry0.mode,
            digest := P0.md5 (List.replicate 15 7),
            salt := some (entry0.salt.getD rand0), isDir := false }) :=
  ⟨⟨by decide, by decide⟩,
   (c5_padding_roundtrip P0_good c0).2.2 (List.replicate 15 7) entry0 rand0 0
     (by decide) (by decide) (by decide) (by decide) (by decide) (by decide) (by decide)
     (Or.inr (Or.inl (by simp)))⟩

/-- C7 counterexample: with an empty pathname and empty content the
container is 80 bytes — 16 header + 0 pathname region + 16 padded content
+ 48 footer — and the bytes after the header are exactly the encryption
of padded content plus footer, so the encrypted-pathname region is empty,
not one full block of padding (which would make the container at least 96
bytes long). -/
theorem c7_counterexample :
    encryptFd P0 c0 [] (some entry0) 0 rand0 0 =
      .ok (containerOf P0 c0 [] entry0 rand0,
           { pathname := [], size := 1, ctime := 2, mtime := 3, mode := 4,
             digest := P0.md5 [], salt := some rand0, isDir := false }) ∧
    (containerOf P0 c0 [] entry0 rand0).length = 80 ∧
    (containerOf P0 c0 [] entry0 rand0).drop 16 =
      (encUpdate P0 (genKeyAndIv P0 c0 rand0).1 (genKeyAndIv P0 c0 rand0).2
        (paddedContent [] ++ footerBytesOf P0 [] entry0)).1 := by
  refine ⟨by decide, by decide, by decide⟩

/-- C7 (amended): a pathname of length exactly 0 is legal, its encrypted
pathname region is empty (zero bytes, not a padding block), and
`decrypt_fd` recovers the empty pathname. -/
theorem c7_empty_pathname_roundtrip {P : Prims} (hG : GoodPrims P) (c : Crypto)
    (content : List Nat) (e : FileEntry) (rand : List Nat) (now : Nat)
    (hp : e.pathname = [])
    (hsalt : (e.salt.getD rand).length = 12)
    (hsize : e.size < 2 ^ 64) (hct : e.ctime < 2 ^ 32) (hmt : e.mtime < 2 ^ 32)
    (hm1 : -(2 ^ 31) ≤ e.mode) (hm2 : e.mode < 2 ^ 31)
    (hclen : content.length ≤ 16320) :
    encryptFd P c content (some e) 0 rand now =
      .ok (containerOf P c content e rand,
           { e with salt := some (e.salt.getD rand), digest := P.md5 content }) ∧
    (containerOf P c content e rand).length =
      16 + (paddedContent content).length + 48 ∧
    decryptFd P c (containerOf P c content e rand) =
      Outcome.ok content
        { pathname := [], size := e.size, ctime := e.ctime, mtime := e.mtime,
          mode := e.mode, digest := P.md5 content, salt := some (e.salt.getD rand),
          isDir := false } := by
  have hpath : e.pathname.length ≤ 65535 := by rw [hp]; simp
  have hivlen : (genKeyAndIv P c (e.salt.getD rand)).2.length = 16 :=
    genKeyAndIv_iv_length hG c (e.salt.getD rand)
  refine ⟨encryptFd_container hG c content e rand now hpath hsize hct hmt hm1 hm2, ?_, ?_⟩
  · have hpp : ppadded e.pathname = [] := by rw [hp]; rfl
    have hc1 : (encUpdate P (genKeyAndIv P c (e.salt.getD rand)).1
        (genKeyAndIv P c (e.salt.getD rand)).2 (ppadded e.pathname)) =
        ([], (genKeyAndIv P c (e.salt.getD rand)).2) := by
      rw [hpp, encUpdate_nil]
    have hc2len : (encUpdate P (genKeyAndIv P c (e.salt.getD rand)).1
        (genKeyAndIv P c (e.salt.getD rand)).2 (paddedContent content)).1.length =
        (paddedContent content).length :=
      (encUpdate_len hG hivlen (paddedContent_dvd content)).1
    have hst2len : (encUpdate P (genKeyAndIv P c (e.salt.getD rand)).1
        (genKeyAndIv P c (e.salt.getD rand)).2 (paddedContent content)).2.length = 16 :=
      (encUpdate_len hG hivlen (paddedContent_dvd content)).2
    have hfbbdvd : 16 ∣ (footerBytesOf P content e).length := by
      rw [footerBytesOf_length hG.md5Len]; decide
    have hc3len : (encUpdate P (genKeyAndIv P c (e.salt.getD rand)).1
        (encUpdate P (genKeyAndIv P c (e.salt.getD rand)).1
          (genKeyAndIv P c (e.salt.getD rand)).2 (paddedContent content)).2
        (footerBytesOf P content e)).1.length = 48 := by
      rw [(encUpdate_len hG hst2len hfbbdvd).1, footerBytesOf_length hG.md5Len]
    simp only [containerOf, hc1]
    simp only [List.length_append, List.length_nil, List.length_cons,
      length_beBytes, hsalt, hc2len, hc3len]
  · have h := decryptFd_container hG c content e rand hsalt hpath hsize hct hmt hm1 hm2 hclen
    rw [hp] at h
    exact h

/-- Witness for C7's amended theorem at a concrete entry. -/
theorem c7_witness :
    (entry0.pathname = [] ∧ (entry0.salt.getD rand0).length = 12) ∧
    (encryptFd P0 c0 [3, 4] (some entry0) 0 rand0 0 =
        .ok (containerOf P0 c0 [3, 4] entry0 rand0,
             { entry0 with salt := some (entry0.salt.getD rand0),
                           digest := P0.md5 [3, 4] }) ∧
      (containerOf P0 c0 [3, 4] entry0 rand0).length =
        16 + (paddedContent [3, 4]).length + 48 ∧
      decryptFd P0 c0 (containerOf P0 c0 [3, 4] entry0 rand0) =
        Outcome.ok [3, 4]
          { pathname := [], size := entry0.size, ctime := entry0.ctime,
            mtime := entry0.mtime, mode := entry0.mode, digest := P0.md5 [3, 4],
            salt := some (entry0.salt.getD rand0), isDir := false }) :=
  ⟨⟨by decide, by decide⟩,
   c7_empty_pathname_roundtrip P0_good c0 [3, 4] entry0 rand0 0 (by decide) (by decide)
     (by decide) (by decide) (by decide) (by decide) (by decide) (by decide)⟩

/-- C6 (code bug): the source truncates the encoded pathname with
`[:2**16]`, i.e. to 65536 bytes, not 65535; for any pathname whose
encoding is 65536 bytes or longer, `pack(b'!H', 65536)` raises
`struct.error`, so `encrypt_fd` fails instead of succeeding for every
pathname. -/
theorem c6_long_pathname_struct_error (P : Prims) (c : Crypto)
    (content : List Nat) (e : FileEntry) (flags : Nat) (rand : List Nat) (now : Nat)
    (hlen : 65536 ≤ e.pathname.length) :
    encryptFd P c content (some e) flags rand now = .error .structError := by
  simp only [encryptFd, Option.getD_some]
  have htk : (e.pathname.take (2 ^ 16)).length = 65536 := by
    rw [List.length_take]
    have : (2 : Nat) ^ 16 = 65536 := by norm_num
    omega
  rw [htk]
  rw [show packH 65536 = .error .structError from by rw [packH]; rfl]
  rfl

/-- Witness entry for C6: a pathname of exactly 65536 bytes. -/
def entry6 : FileEntry :=
  { pathname := List.replicate 65536 97, size := 0, ctime := 0, mtime := 0, mode := 0 }

/-- Witness for C6. -/
theorem c6_witness :
    65536 ≤ entry6.pathname.length ∧
    encryptFd P0 c0 [] (some entry6) 0 rand0 0 = .error .structError :=
  ⟨by rw [show entry6.pathname = List.replicate 65536 97 from rfl, List.length_replicate],
   c6_long_pathname_struct_error P0 c0 [] entry6 0 rand0 0
     (by rw [show entry6.pathname = List.replicate 65536 97 from rfl, List.length_replicate])⟩

/-- C9: `decrypt_fd` fails with `UnrecognizedContent` on truncated input —
when the stream yields fewer than `block_size` bytes for the header, or
(for a version-acceptable header) fewer bytes than the computed padded
pathname length for the pathname region. -/
theorem c9_truncation_unrecognized (P : Prims) (c : Crypto) (input : List Nat) :
    (input.length < 16 → decryptFd P c input = Outcome.err [] Err.unrecognizedContent) ∧
    (16 ≤ input.length → input.getD 0 0 ≤ Crypto.VERSION →
      input.length - 16 < pbsOf input →
      decryptFd P c input = Outcome.err [] Err.unrecognizedContent) := by
  constructor
  · intro hshort
    simp only [decryptFd]
    rw [show Crypto.blockSize = 16 from rfl]
    rw [if_pos (by rw [List.length_take]; omega)]
  · intro h16 hver hlt
    have hgd0 : (input.take 16).getD 0 0 = input.getD 0 0 := by
      cases input with
      | nil => rfl
      | cons x xs => rfl
    simp only [decryptFd]
    rw [show Crypto.blockSize = 16 from rfl]
    rw [if_neg (by rw [List.length_take]; omega)]
    rw [if_neg (by rw [hgd0]; exact not_lt.mpr hver)]
    rw [if_pos]
    simp only [pbsOf, psOf] at hlt
    rw [List.length_take, List.length_drop]
    revert hlt
    split <;> (intro hlt; omega)

/-- A 17-byte stream whose header declares a 32-byte pathname region. -/
def input9 : List Nat := [0, 0, 0, 32] ++ List.replicate 12 0 ++ [5]

/-- Witness for C9: a 3-byte stream, and a 17-byte stream that claims a
32-byte pathname region. -/
theorem c9_witness :
    ([0, 1, 2] : List Nat).length < 16 ∧
    decryptFd P0 c0 [0, 1, 2] = Outcome.err [] Err.unrecognizedContent ∧
    16 ≤ input9.length ∧
    input9.getD 0 0 ≤ Crypto.VERSION ∧
    input9.length - 16 < pbsOf input9 ∧
    decryptFd P0 c0 input9 = Outcome.err [] Err.unrecognizedContent :=
  ⟨by decide, (c9_truncation_unrecognized P0 c0 [0, 1, 2]).1 (by decide),
   by decide, by decide, by decide,
   (c9_truncation_unrecognized P0 c0 input9).2 (by decide) (by decide) (by decide)⟩

/-- C10: when the input ends immediately after the pathname region, the
lookahead loop of `decrypt_fd` never terminates: the `finished` flag is
only set in the branch guarded by a nonempty previous chunk, so with an
empty stream every iteration reads another empty chunk; no iteration
bound makes `decLoop` finish, and `decrypt_fd` diverges. -/
theorem c10_empty_content_loop_diverges (P : Prims) (c : Crypto) :
    (∀ (key pn : List Nat) (fuel : Nat) (ctx : CipherCtx) (acc : List Nat),
      decLoop P key pn fuel [] ctx [] acc = none) ∧
    (∀ input, 16 ≤ input.length → input.getD 0 0 ≤ Crypto.VERSION →
      input.length = 16 + pbsOf input →
      decryptFd P c input = Outcome.diverge) := by
  have hloop : ∀ (key pn : List Nat) (fuel : Nat) (ctx : CipherCtx) (acc : List Nat),
      decLoop P key pn fuel [] ctx [] acc = none := by
    intro key pn fuel
    induction fuel with
    | zero => intro ctx acc; rfl
    | succ fuel ih =>
      intro ctx acc
      rw [decLoop, if_pos (by simp), List.take_nil, List.drop_nil]
      exact ih ctx acc
  refine ⟨hloop, ?_⟩
  intro input h16 hver hlen
  have hgd0 : (input.take 16).getD 0 0 = input.getD 0 0 := by
    cases input with
    | nil => rfl
    | cons x xs => rfl
  simp only [decryptFd]
  rw [show Crypto.blockSize = 16 from rfl]
  rw [if_neg (by rw [List.length_take]; omega)]
  rw [if_neg (by rw [hgd0]; exact not_lt.mpr hver)]
  have hpbs : input.length - 16 = pbsOf input := by omega
  simp only [pbsOf, psOf] at hpbs
  rw [if_neg (by
    rw [List.length_take, List.length_drop]
    revert hpbs
    split <;> (intro hpbs; omega))]
  have hrest : ∀ pbs2, input.length - 16 ≤ pbs2 → (input.drop 16).drop pbs2 = [] := by
    intro pbs2 h2
    apply List.drop_eq_nil_of_le
    rw [List.length_drop]
    exact h2
  rw [hrest _ (by revert hpbs; split <;> (intro hpbs; omega))]
  rw [hloop]

/-- Witness for C10: a 16-byte header declaring a zero-length pathname and
followed by nothing. -/
theorem c10_witness :
    16 ≤ (List.replicate 16 0 : List Nat).length ∧
    (List.replicate 16 0 : List Nat).getD 0 0 ≤ Crypto.VERSION ∧
    (List.replicate 16 0 : List Nat).length = 16 + pbsOf (List.replicate 16 0) ∧
    decryptFd P0 c0 (List.replicate 16 0) = Outcome.diverge ∧
    decLoop P0 (genKeyAndIv P0 c0 (List.replicate 12 0)).1 [] 5 [] ⟨[], []⟩ [] [] = none :=
  ⟨by decide, by decide, by decide,
   (c10_empty_content_loop_diverges P0 c0).2 (List.replicate 16 0) (by decide)
     (by decide) (by decide),
   (c10_empty_content_loop_diverges P0 c0).1 _ [] 5 ⟨[], []⟩ []⟩

/-- C1 (refuted round-trip): `decrypt_fd` seeks the 48-byte footer in the
plaintext of the FINAL chunk only (`plaintext[-48:]` is computed after the
loop's last `decryptor.update(chunk)`), so when the encrypted content
region spills just past a 16384-byte read boundary the final chunk holds
only a fragment of the footer and `unpack(b'!QIIi', ·)` raises
`struct.error`.  Concretely: for any block-aligned pathname and a content
of 16337 bytes, `encrypt_fd` succeeds and writes the container, yet
`decrypt_fd` on that very container fails with `struct.error` instead of
returning the content — the claimed round trip does not hold. -/
theorem c1_final_chunk_footer_bug {P : Prims} (hG : GoodPrims P) (c : Crypto)
    (content : List Nat) (e : FileEntry) (rand : List Nat) (now : Nat)
    (hsalt : (e.salt.getD rand).length = 12)
    (hps16 : e.pathname.length % 16 = 0)
    (hpath : e.pathname.length ≤ 65535)
    (hsize : e.size < 2 ^ 64) (hct : e.ctime < 2 ^ 32) (hmt : e.mtime < 2 ^ 32)
    (hm1 : -(2 ^ 31) ≤ e.mode) (hm2 : e.mode < 2 ^ 31)
    (hclen : content.length = 16337) :
    encryptFd P c content (some e) 0 rand now =
      .ok (containerOf P c content e rand,
           { e with salt := some (e.salt.getD rand), digest := P.md5 content }) ∧
    decryptFd P c (containerOf P c content e rand) =
      Outcome.err [] Err.structError := by
  refine ⟨encryptFd_container hG c content e rand now hpath hsize hct hmt hm1 hm2, ?_⟩
  have hivlen : (genKeyAndIv P c (e.salt.getD rand)).2.length = 16 :=
    genKeyAndIv_iv_length hG c (e.salt.getD rand)
  have hassoc2 : containerOf P c content e rand =
      ([Crypto.VERSION, 0] ++ beBytes 2 e.pathname.length ++ e.salt.getD rand) ++
        ((encUpdate P (genKeyAndIv P c (e.salt.getD rand)).1
            (genKeyAndIv P c (e.salt.getD rand)).2 (ppadded e.pathname)).1 ++
         ((encUpdate P (genKeyAndIv P c (e.salt.getD rand)).1
             (encUpdate P (genKeyAndIv P c (e.salt.getD rand)).1
               (genKeyAndIv P c (e.salt.getD rand)).2 (ppadded e.pathname)).2
             (paddedContent content)).1 ++
          (encUpdate P (genKeyAndIv P c (e.salt.getD rand)).1
             (encUpdate P (genKeyAndIv P c (e.salt.getD rand)).1
               (encUpdate P (genKeyAndIv P c (e.salt.getD rand)).1
                 (genKeyAndIv P c (e.salt.getD rand)).2 (ppadded e.pathname)).2
               (paddedContent content)).2
             (footerBytesOf P content e)).1)) := by
    simp only [containerOf, List.append_assoc]
  rw [hassoc2]
  set salt := e.salt.getD rand with hsaltdef
  set key := (genKeyAndIv P c salt).1 with hkeydef
  set iv := (genKeyAndIv P c salt).2 with hivdef
  set pp := ppadded e.pathname with hppdef
  set c1 := (encUpdate P key iv pp).1 with hc1def
  set st1 := (encUpdate P key iv pp).2 with hst1def
  set pc := paddedContent content with hpcdef
  set c2 := (encUpdate P key st1 pc).1 with hc2def
  set st2 := (encUpdate P key st1 pc).2 with hst2def
  set fbb := footerBytesOf P content e with hfbbdef
  set c3 := (encUpdate P key st2 fbb).1 with hc3def
  set ps := e.pathname.length with hpsdef
  have hst1len : st1.length = 16 :=
    (@encUpdate_len P key hG pp iv hivlen (ppadded_dvd e.pathname)).2
  have hc1len : c1.length = pp.length :=
    (@encUpdate_len P key hG pp iv hivlen (ppadded_dvd e.pathname)).1
  have hpcdvd : 16 ∣ pc.length := paddedContent_dvd content
  have hst2len : st2.length = 16 :=
    (@encUpdate_len P key hG pc st1 hst1len hpcdvd).2
  have hc2len : c2.length = pc.length :=
    (@encUpdate_len P key hG pc st1 hst1len hpcdvd).1
  have hfbblen : fbb.length = 48 := footerBytesOf_length hG.md5Len content e
  have hfbbdvd : 16 ∣ fbb.length := by rw [hfbblen]; decide
  have hc3len : c3.length = 48 := by
    have h := (@encUpdate_len P key hG fbb st2 hst2len hfbbdvd).1
    rw [hc3def, h, hfbblen]
  have hpclen : pc.length = content.length + padLenOf content.length := by
    rw [hpcdef]; simp [paddedContent]
  have hpc16352 : pc.length = 16352 := by
    rw [hpclen, hclen]; decide
  have hbe2 : beBytes 2 ps = [ps / 256 % 256, ps % 256] := by simp [beBytes]
  have hhdrlen : ([Crypto.VERSION, 0] ++ beBytes 2 ps ++ salt).length = 16 := by
    simp [List.length_append, length_beBytes, hsalt]
  simp only [decryptFd]
  rw [show Crypto.blockSize = 16 from rfl]
  rw [take_append_exact hhdrlen, drop_append_exact hhdrlen]
  rw [if_neg (by rw [hhdrlen]; omega)]
  have hgd0 : ([Crypto.VERSION, 0] ++ beBytes 2 ps ++ salt).getD 0 0 = 1 := by rw [hbe2]; rfl
  have hgd2 : ([Crypto.VERSION, 0] ++ beBytes 2 ps ++ salt).getD 2 0 = ps / 256 % 256 := by
    rw [hbe2]; rfl
  have hgd3 : ([Crypto.VERSION, 0] ++ beBytes 2 ps ++ salt).getD 3 0 = ps % 256 := by
    rw [hbe2]; rfl
  have hgd1 : ([Crypto.VERSION, 0] ++ beBytes 2 ps ++ salt).getD 1 0 = 0 := by rw [hbe2]; rfl
  have hdrop4 : ([Crypto.VERSION, 0] ++ beBytes 2 ps ++ salt).drop 4 = salt := by rw [hbe2]; rfl
  rw [hgd0, if_neg (by decide), hgd1, hgd2, hgd3, hdrop4]
  have hpsparse : 256 * (ps / 256 % 256) + ps % 256 = ps := by omega
  rw [hpsparse, ← hkeydef, ← hivdef]
  have hc23len : (c2 ++ c3).length = pc.length + 48 := by
    simp [List.length_append, hc2len, hc3len]
  have hc23len' : (c2 ++ c3).length = 16400 := by
    rw [hc23len, hpc16352]
  have hpcfbbdvd : 16 ∣ (pc ++ fbb).length := by
    rw [List.length_append]
    exact Nat.dvd_add hpcdvd hfbbdvd
  have hc2c3 : c2 ++ c3 = (encUpdate P key st1 (pc ++ fbb)).1 := by
    rw [encUpdate_append hG hst1len hpcdvd]
  have hcond : ¬ (ps % 16 ≠ 0) := by rw [hps16]; simp
  simp only [if_neg hcond]
  have hc1ps : c1.length = ps := by
    rw [hc1len, hppdef, ppadded_length, ← hpsdef, if_neg hcond]
  rw [take_append_exact hc1ps, drop_append_exact hc1ps]
  rw [if_neg (by rw [hc1ps]; omega)]
  rw [ctxUpdateDec_aligned P key iv c1 (by rw [hc1ps]; exact Nat.dvd_of_mod_eq_zero hps16)]
  rw [hc1def, decUpdate_encUpdate hG hivlen (by rw [hppdef]; exact ppadded_dvd e.pathname)]
  dsimp only
  rw [show List.take ps pp = e.pathname from by rw [hppdef, hpsdef]; exact ppadded_take e.pathname]
  rw [← hst1def]
  rw [show (c2 ++ c3).length + 2 = 16399 + 3 from by rw [hc23len']]
  rw [decLoop_double P key e.pathname 16399 ⟨st1, []⟩ (c2 ++ c3) []
    (by rw [hc23len', chunkSize_eq]; omega) (by rw [hc23len', chunkSize_eq]; omega)]
  set r1 := (c2 ++ c3).take chunkSize with hr1def
  set r2 := (c2 ++ c3).drop chunkSize with hr2def
  have hr1len : r1.length = 16384 := by
    rw [hr1def, List.length_take, chunkSize_eq, hc23len']; omega
  have hr1dvd : 16 ∣ r1.length := by rw [hr1len]; decide
  have hr2len : r2.length = 16 := by
    rw [hr2def, List.length_drop, chunkSize_eq, hc23len']
  have hr2dvd : 16 ∣ r2.length := by rw [hr2len]
  rw [ctxUpdateDec_aligned P key st1 r1 hr1dvd]
  dsimp only
  rw [ctxUpdateDec_aligned P key (decUpdate P key st1 r1).2 r2 hr2dvd]
  dsimp only
  rw [ctxFinalize_empty]
  dsimp only
  have hjoin : r1 ++ r2 = c2 ++ c3 := by
    rw [hr1def, hr2def]; exact List.take_append_drop chunkSize (c2 ++ c3)
  have hsplit := @decUpdate_append P key r1 r2 st1 hr1dvd
  rw [hjoin, hc2c3, decUpdate_encUpdate hG hst1len hpcfbbdvd] at hsplit
  have h1eq : pc ++ fbb =
      (decUpdate P key st1 r1).1 ++ (decUpdate P key (decUpdate P key st1 r1).2 r2).1 :=
    congrArg Prod.fst hsplit
  have hlen1 : (decUpdate P key st1 r1).1.length = r1.length :=
    decUpdate_len hG hst1len hr1dvd
  have hptlen : (decUpdate P key (decUpdate P key st1 r1).2 r2).1.length = 16 := by
    have hl := congrArg List.length h1eq
    simp only [List.length_append] at hl
    rw [hpc16352, hfbblen, hlen1, hr1len] at hl
    omega
  rw [List.append_nil, decFinish_short (by rw [hptlen]; omega)]

/-- A 16337-byte content whose container `decrypt_fd` cannot read back. -/
def content1 : List Nat := List.replicate 16337 0

lemma content1_length : content1.length = 16337 := by
  rw [show content1 = List.replicate 16337 0 from rfl, List.length_replicate]

/-- Witness for C1 at concrete inputs: the bug fires for the all-zero
16337-byte content under the concrete primitives. -/
theorem c1_witness :
    content1.length = 16337 ∧
    encryptFd P0 c0 content1 (some entry0) 0 rand0 0 =
      .ok (containerOf P0 c0 content1 entry0 rand0,
           { entry0 with salt := some (entry0.salt.getD rand0),
                         digest := P0.md5 content1 }) ∧
    decryptFd P0 c0 (containerOf P0 c0 content1 entry0 rand0) =
      Outcome.err [] Err.structError :=
  ⟨content1_length,
   (c1_final_chunk_footer_bug P0_good c0 content1 entry0 rand0 0
      (by decide) (by decide) (by decide) (by decide) (by decide) (by decide)
      (by decide) (by decide) content1_length).1,
   (c1_final_chunk_footer_bug P0_good c0 content1 entry0 rand0 0
      (by decide) (by decide) (by decide) (by decide) (by decide) (by decide)
      (by decide) (by decide) content1_length).2⟩

/-- Every error outcome of `decrypt_fd` carries an empty sink: the single
`out_fd.write` comes after the digest comparison, so nothing has been
written when any exception is raised. -/
lemma decryptFd_err_sink (P : Prims) (c : Crypto) (input : List Nat)
    (s : List Nat) (er : Err) (h : decryptFd P c input = Outcome.err s er) : s = [] := by
  simp only [decryptFd] at h
  repeat' split at h
  all_goals first | (cases h; rfl) | cases h

/-- `decrypt_fd` reports `VersionNotCompatible` only when the version byte
actually exceeds the engine version. -/
lemma decryptFd_version_err (P : Prims) (c : Crypto) (input : List Nat)
    (s : List Nat) (h : decryptFd P c input = Outcome.err s Err.versionNotCompatible) :
    Crypto.VERSION < (input.take Crypto.blockSize).getD 0 0 := by
  simp only [decryptFd] at h
  repeat' split at h
  all_goals try cases h
  all_goals first
    | assumption
    | exact absurd (by assumption)
        (decLoop_no_version _ _ _ _ _ _ _ _ _ (Or.inl rfl))

/-- C2 (amended): when the stored digest disagrees with the recomputed
content digest, `decrypt_fd` fails with the digest-mismatch error and the
output sink has received nothing — the decrypted content is only
materialised in an internal buffer, and the single sink write happens
after the digest comparison. -/
theorem c2_digest_mismatch_sink_empty (P : Prims) (c : Crypto) (input : List Nat)
    (s : List Nat) (h : decryptFd P c input = Outcome.err s Err.digestMissMatch) :
    s = [] :=
  decryptFd_err_sink P c input s Err.digestMissMatch h

/-- C2 counterexample: a concrete container holding the one-byte content
`[1]` with a corrupted stored digest.  Decryption fails with the
digest-mismatch error while the sink is empty — it is not the case that
the decrypted content `[1]` was already written to the sink when the
comparison failed. -/
theorem c2_counterexample :
    decryptFd P0 c0 badContainer = Outcome.err [] Err.digestMissMatch ∧
    decryptFd P0 c0 badContainer ≠ Outcome.err [1] Err.digestMissMatch := by
  refine ⟨by decide, by decide⟩

/-- Witness for the amended C2 theorem at the concrete bad container. -/
theorem c2_witness :
    decryptFd P0 c0 badContainer = Outcome.err [] Err.digestMissMatch ∧
    ([] : List Nat) = [] :=
  ⟨by decide, c2_digest_mismatch_sink_empty P0 c0 badContainer [] (by decide)⟩

/-- C8: the version gate.  Any input stream of at least one header whose
version byte exceeds `Crypto.VERSION` fails with `VersionNotCompatible`,
and the outcome is the same for every continuation of the header — the
rest of the container is never parsed.  Conversely a stream whose version
byte is at most `Crypto.VERSION` never fails with the version error. -/
theorem c8_version_gate (P : Prims) (c : Crypto) :
    (∀ input, 16 ≤ input.length → Crypto.VERSION < input.getD 0 0 →
      decryptFd P c input = Outcome.err [] Err.versionNotCompatible ∧
      ∀ rest, decryptFd P c (input.take 16 ++ rest) =
        Outcome.err [] Err.versionNotCompatible) ∧
    (∀ input s, input.getD 0 0 ≤ Crypto.VERSION →
      decryptFd P c input ≠ Outcome.err s Err.versionNotCompatible) := by
  have hgd0 : ∀ l : List Nat, (l.take 16).getD 0 0 = l.getD 0 0 := by
    intro l; cases l <;> rfl
  constructor
  · intro input h16 hv
    constructor
    · simp only [decryptFd]
      rw [show Crypto.blockSize = 16 from rfl]
      rw [if_neg (by rw [List.length_take]; omega)]
      rw [if_pos (by rw [hgd0]; exact hv)]
    · intro rest
      simp only [decryptFd]
      rw [show Crypto.blockSize = 16 from rfl]
      have htt : (input.take 16 ++ rest).take 16 = input.take 16 := by
        rw [List.take_append_of_le_length (by rw [List.length_take]; omega),
          List.take_take, min_self]
      rw [htt]
      rw [if_neg (by rw [List.length_take]; omega)]
      rw [if_pos (by rw [hgd0]; exact hv)]
  · intro input s hver h
    have hb := decryptFd_version_err P c input s h
    rw [show Crypto.blockSize = 16 from rfl, hgd0] at hb
    omega

/-- A 16-byte header with version byte 9. -/
def input8 : List Nat := 9 :: List.replicate 15 0

/-- Witness for C8: version 9 is rejected whatever follows the header;
version 0 is never rejected for incompatibility. -/
theorem c8_witness :
    16 ≤ input8.length ∧ Crypto.VERSION < input8.getD 0 0 ∧
    decryptFd P0 c0 input8 = Outcome.err [] Err.versionNotCompatible ∧
    decryptFd P0 c0 (input8.take 16 ++ [7, 7]) =
      Outcome.err [] Err.versionNotCompatible ∧
    (List.replicate 16 0 : List Nat).getD 0 0 ≤ Crypto.VERSION ∧
    decryptFd P0 c0 (List.replicate 16 0) ≠ Outcome.err [] Err.versionNotCompatible :=
  ⟨by decide, by decide,
   ((c8_version_gate P0 c0).1 input8 (by decide) (by decide)).1,
   ((c8_version_gate P0 c0).1 input8 (by decide) (by decide)).2 [7, 7],
   by decide,
   (c8_version_gate P0 c0).2 (List.replicate 16 0) [] (by decide)⟩

end Syncrypto
